import Mathlib

/-!
Verification development for the automaker feature-execution orchestrator.

The TypeScript source (the AutoModeService class and its helpers) is
shallowly embedded: pure logic becomes Lean functions, stateful code
becomes explicit state passing, JavaScript Map values become association
lists, and JavaScript strings handled character by character become lists
of characters.  Line numbers in doc comments refer to the orchestration
module of the repository.
-/

namespace Automaker

/-- Identifier of a feature; keys of the runningFeatures map. -/
abbrev FeatureId := String

/-! ## Running-feature registry (executeFeature entry guard and cleanup) -/

/-- Outcome of the try block of one executeFeature call: it completes
normally, throws a non-abort error, or is aborted by the user. -/
inductive ExecOutcome
  | success
  | failure
  | aborted
deriving DecidableEq, Repr

/-- Abstract actions of the executeFeature body in source order; asyncWork
stands for every awaited operation inside the try block. -/
inductive ExecAction
  | register
  | asyncWork
  | removeEntry
deriving DecidableEq, Repr

/-- Observable result of one executeFeature call: the guard outcome, the
registry right after the synchronous entry section, the registry after the
finally block, and the ordered trace of registry-relevant actions. -/
structure ExecRun where
  result : Except String Unit
  registryDuring : List FeatureId
  registryFinal : List FeatureId
  trace : List ExecAction
deriving Repr

/-- Embedding of the registry discipline of executeFeature: if the feature
id is already a key of runningFeatures the call throws "already running"
before touching the map; otherwise the id is inserted synchronously, the
asynchronous body runs, and the finally block always deletes the id,
whether the body completed, failed or was aborted. -/
def executeFeatureRun (reg : List FeatureId) (fid : FeatureId) (outcome : ExecOutcome) :
    ExecRun :=
  if fid ∈ reg then
    { result := Except.error "already running"
      registryDuring := reg
      registryFinal := reg
      trace := [] }
  else
    let regDuring := fid :: reg
    let result : Except String Unit :=
      match outcome with
      | ExecOutcome.success => Except.ok ()
      | ExecOutcome.failure => Except.ok ()
      | ExecOutcome.aborted => Except.ok ()
    { result := result
      registryDuring := regDuring
      registryFinal := regDuring.erase fid
      trace := [ExecAction.register, ExecAction.asyncWork, ExecAction.removeEntry] }

/-! ## Quality gate runner (runQualityChecks) -/

/-- Status recorded for one verification command. -/
inductive CheckStatus
  | pass
  | fail
  | skipped
deriving DecidableEq, Repr

/-- The fixed ordered verification command list of runQualityChecks,
as (shell command, check name) pairs. -/
def verificationChecks : List (String × String) :=
  [("npm run lint", "Lint"),
   ("npm run typecheck", "Type check"),
   ("npm test", "Tests"),
   ("npm run build", "Build")]

/-- Embedding of the check loop of runQualityChecks: commands run in list
order; outcome cmd = true models a zero exit code.  The first failing
command is recorded as fail, every remaining check is recorded as skipped,
and the loop stops. -/
def runChecksFrom (outcome : String → Bool) : List (String × String) → List (String × CheckStatus)
  | [] => []
  | (cmd, name) :: rest =>
    if outcome cmd then
      (name, CheckStatus.pass) :: runChecksFrom outcome rest
    else
      (name, CheckStatus.fail) :: rest.map (fun c => (c.2, CheckStatus.skipped))

/-- Embedding of the allPassed flag of runQualityChecks: it stays true
exactly when no command of the list fails before the loop stops. -/
def runChecksAllPassed (outcome : String → Bool) : List (String × String) → Bool
  | [] => true
  | (cmd, _) :: rest => outcome cmd && runChecksAllPassed outcome rest

/-- Full outcome of runQualityChecks on the fixed check list. -/
def runQualityChecks (outcome : String → Bool) : Bool × List (String × CheckStatus) :=
  (runChecksAllPassed outcome verificationChecks, runChecksFrom outcome verificationChecks)

/-- Command outcome of the C4 scenario: lint passes, typecheck fails. -/
def lintPassTypecheckFail : String → Bool := fun cmd => cmd = "npm run lint"

/-! ## Final status boundary of executeFeature (quality gate, judge, finalize) -/

/-- Maximum number of automatic quality-gate fix attempts. -/
def MAX_QUALITY_FIX_ATTEMPTS : Nat := 2

/-- Maximum number of judge-driven revisions. -/
def MAX_JUDGE_REVISIONS : Nat := 2

/-- Verdict returned by the judge evaluation. -/
inductive Verdict
  | pass
  | revise
  | fail
deriving DecidableEq, Repr

/-- Embedding of the bounded retry while-loops of executeFeature: result n
is the outcome of attempt n; the loop re-runs while the last attempt failed
and retry budget remains. -/
def fixLoop (result : Nat → Bool) : Nat → Nat → Bool → Bool
  | 0, _, passed => passed
  | remaining + 1, attempt, passed =>
    if passed then passed
    else fixLoop result remaining (attempt + 1) (result (attempt + 1))

/-- Quality phase of executeFeature: with skipTests the checks are recorded
skipped and qualityPassed stays true; otherwise the gate runs with up to
MAX_QUALITY_FIX_ATTEMPTS fix revisions. -/
def runQualityPhase (skipTests : Bool) (gateResult : Nat → Bool) : Bool :=
  if skipTests then true
  else fixLoop gateResult MAX_QUALITY_FIX_ATTEMPTS 0 (gateResult 0)

/-- Judge phase of executeFeature: it only runs when the quality gate
passed (judgePassed is initialized true otherwise), with up to
MAX_JUDGE_REVISIONS revisions; passing means verdict pass. -/
def runJudgePhase (qualityPassed : Bool) (verdict : Nat → Verdict) : Bool :=
  if qualityPassed then
    fixLoop (fun n => verdict n = Verdict.pass) MAX_JUDGE_REVISIONS 0
      (verdict 0 = Verdict.pass)
  else true

/-- Result of the verification tail of executeFeature. -/
structure VerificationOutcome where
  qualityPassed : Bool
  judgePassed : Bool
  passedGates : Bool
  finalStatus : String
deriving DecidableEq, Repr

/-- Embedding of the terminal success boundary of executeFeature:
passedGates = qualityPassed AND judgePassed, and the persisted final status
is verified exactly for passedGates with skipTests false, otherwise
waiting_approval. -/
def finalizeFeature (skipTests : Bool) (gateResult : Nat → Bool) (verdict : Nat → Verdict) :
    VerificationOutcome :=
  let qualityPassed := runQualityPhase skipTests gateResult
  let judgePassed := runJudgePhase qualityPassed verdict
  let passedGates := qualityPassed && judgePassed
  { qualityPassed := qualityPassed
    judgePassed := judgePassed
    passedGates := passedGates
    finalStatus := if passedGates && !skipTests then "verified" else "waiting_approval" }

/-! ## Failure circuit breaker (trackFailureAndCheckPause, recordSuccess) -/

/-- Threshold of in-window failures that pauses the auto loop. -/
def CONSECUTIVE_FAILURE_THRESHOLD : Nat := 3

/-- Rolling failure window in milliseconds. -/
def FAILURE_WINDOW_MS : Nat := 60000

/-- One recorded failure of the consecutiveFailures array. -/
structure FailureEntry where
  timestamp : Nat
  error : String
deriving DecidableEq, Repr

/-- Mutable breaker state of the AutoModeService. -/
structure BreakerState where
  consecutiveFailures : List FailureEntry
  pausedDueToFailures : Bool
  autoLoopRunning : Bool
deriving DecidableEq, Repr

/-- Error categories that pause immediately regardless of the counter. -/
def isFatalErrorType (etype : String) : Bool :=
  etype = "quota_exhausted" || etype = "rate_limit"

/-- Embedding of trackFailureAndCheckPause: push the new failure, drop the
entries outside the rolling window, then report pause when the in-window
count reaches the threshold or the error category is fatal. -/
def trackFailureAndCheckPause (now : Nat) (etype emsg : String) (st : BreakerState) :
    Bool × BreakerState :=
  let pushed := st.consecutiveFailures ++ [{ timestamp := now, error := emsg }]
  let recent := pushed.filter (fun f => now - f.timestamp < FAILURE_WINDOW_MS)
  let st1 := { st with consecutiveFailures := recent }
  if CONSECUTIVE_FAILURE_THRESHOLD ≤ recent.length then (true, st1)
  else if isFatalErrorType etype then (true, st1)
  else (false, st1)

/-- Embedding of signalShouldPause: once per pause it marks the service
paused, emits the paused-due-to-failures event (second component) and stops
the auto loop. -/
def signalShouldPause (st : BreakerState) : BreakerState × Bool :=
  if st.pausedDueToFailures then (st, false)
  else ({ st with pausedDueToFailures := true, autoLoopRunning := false }, true)

/-- Embedding of recordSuccess: a successful feature completion clears the
consecutive-failure counter. -/
def recordSuccess (st : BreakerState) : BreakerState :=
  { st with consecutiveFailures := [] }

/-- Composition used at each failure site of executeFeature: track the
failure, then signal the pause when requested. -/
def handleFeatureFailure (now : Nat) (etype emsg : String) (st : BreakerState) :
    BreakerState × Bool :=
  let tracked := trackFailureAndCheckPause now etype emsg st
  if tracked.1 then signalShouldPause tracked.2 else (tracked.2, false)

/-! ## Pending plan-approval waiter registration (waitForPlanApproval) -/

/-- Value stored for one pending approval; the waiter number stands for the
promise resolve/reject pair, projectPath as in the source record. -/
structure PendingRec where
  waiter : Nat
  projectPath : String
deriving DecidableEq, Repr

/-- JavaScript Map.set on an association list: replace the value of an
existing key in place, otherwise append the new entry. -/
def mapSet {α : Type} : List (FeatureId × α) → FeatureId → α → List (FeatureId × α)
  | [], k, v => [(k, v)]
  | (k0, v0) :: rest, k, v =>
    if k0 = k then (k, v) :: rest else (k0, v0) :: mapSet rest k v

/-- JavaScript Map.get on an association list. -/
def mapGet {α : Type} : List (FeatureId × α) → FeatureId → Option α
  | [], _ => none
  | (k0, v0) :: rest, k => if k0 = k then some v0 else mapGet rest k

/-- JavaScript Map.delete on an association list. -/
def mapDelete {α : Type} : List (FeatureId × α) → FeatureId → List (FeatureId × α)
  | [], _ => []
  | (k0, v0) :: rest, k =>
    if k0 = k then rest else (k0, v0) :: mapDelete rest k

/-- Embedding of the registration done inside waitForPlanApproval: the new
waiter is installed with Map.set unconditionally; no existing waiter is
consulted, resolved or rejected.  The second component reports the waiter
whose reject was invoked during registration, which is always none. -/
def waitForPlanApprovalRegister (pending : List (FeatureId × PendingRec)) (fid : FeatureId)
    (entry : PendingRec) : List (FeatureId × PendingRec) × Option Nat :=
  (mapSet pending fid entry, none)

/-! ## Optimistic-concurrency plan-spec updates (updatePlanSpecWithRetry) -/

/-- Fields of the persisted PlanSpec relevant to the version protocol. -/
structure PlanSpecRec where
  status : String
  version : Nat
  reviewedByUser : Bool
  taskStateVersion : Nat
  content : Option String
  approvedAt : Option Nat
deriving DecidableEq, Repr

/-- Embedding of one write attempt of updatePlanSpecWithRetry: read the
current taskStateVersion, apply the updater to a copy of the stored spec,
then overwrite the updater result with read version plus one before
writing. -/
def updatePlanSpecAttempt (stored : PlanSpecRec) (updater : PlanSpecRec → PlanSpecRec) :
    PlanSpecRec :=
  let currentTaskVersion := stored.taskStateVersion
  let nextPlanSpec := updater stored
  { nextPlanSpec with taskStateVersion := currentTaskVersion + 1 }

/-- Retry loop of updatePlanSpecWithRetry: reads n is the spec read by
attempt n and verifyOk n models the post-write version check of attempt n;
the first verified attempt returns its written spec, and after maxRetries
failed attempts the helper gives up with none. -/
def updatePlanSpecWithRetryGo (reads : Nat → PlanSpecRec) (verifyOk : Nat → Bool)
    (updater : PlanSpecRec → PlanSpecRec) : Nat → Nat → Option PlanSpecRec
  | 0, _ => none
  | remaining + 1, attempt =>
    if verifyOk attempt then some (updatePlanSpecAttempt (reads attempt) updater)
    else updatePlanSpecWithRetryGo reads verifyOk updater remaining (attempt + 1)

/-- Entry point of the retry helper with its default bound of 5 attempts. -/
def updatePlanSpecWithRetry (reads : Nat → PlanSpecRec) (verifyOk : Nat → Bool)
    (updater : PlanSpecRec → PlanSpecRec) : Option PlanSpecRec :=
  updatePlanSpecWithRetryGo reads verifyOk updater 5 0

/-- Sequential composition of successful updates against the same stored
spec: each update reads the result of the previous one. -/
def applyPlanSpecUpdates (stored : PlanSpecRec) :
    List (PlanSpecRec → PlanSpecRec) → PlanSpecRec
  | [] => stored
  | u :: us => applyPlanSpecUpdates (updatePlanSpecAttempt stored u) us

/-! ## Task records and the dependency-aware scheduler -/

/-- JavaScript strings handled character by character. -/
abbrev Str := List Char

/-- Task status values of the scheduler. -/
inductive TaskStatus
  | pending
  | in_progress
  | completed
  | blocked
  | failed
deriving DecidableEq, Repr

/-- Task complexity buckets. -/
inductive Complexity
  | low
  | medium
  | high
deriving DecidableEq, Repr

/-- The ParsedTask record produced by the plan parser and consumed by the
scheduler. -/
structure ParsedTask where
  id : Str
  description : Str
  filePath : Option Str
  phase : Option Str
  dependsOn : Option (List Str)
  complexity : Option Complexity
  status : TaskStatus
deriving DecidableEq, Repr

/-- taskMap.get on the task list; the scheduler builds the map once from a
list whose ids are distinct in every well-formed run, so first match equals
last-entry-wins. -/
def taskMapGet (tasks : List ParsedTask) (tid : Str) : Option ParsedTask :=
  tasks.find? (fun t => decide (t.id = tid))

/-- Status assignment on the shared task objects: every record with the
given id is rewritten (one object under distinct ids). -/
def setTaskStatus (tasks : List ParsedTask) (tid : Str) (s : TaskStatus) :
    List ParsedTask :=
  tasks.map (fun t => if t.id = tid then { t with status := s } else t)

/-- Check of the up-front sweep: a task with a dependency id absent from
the task map. -/
def hasMissingDep (tasks : List ParsedTask) (t : ParsedTask) : Bool :=
  (t.dependsOn.getD []).any (fun d => !(tasks.any (fun u => decide (u.id = d))))

/-- Up-front sweep of executeTasksWithDependencies: tasks with unresolvable
dependency ids are marked blocked before scheduling starts. -/
def markMissingDepsBlocked (tasks : List ParsedTask) : List ParsedTask :=
  tasks.map (fun t =>
    if hasMissingDep tasks t then { t with status := TaskStatus.blocked } else t)

/-- All dependsOn entries resolve to a completed task. -/
def depsAllCompleted (tasks : List ParsedTask) (t : ParsedTask) : Bool :=
  (t.dependsOn.getD []).all
    (fun d => (taskMapGet tasks d).any (fun u => decide (u.status = TaskStatus.completed)))

/-- Embedding of the isReady closure: status pending and every dependsOn id
currently completed. -/
def isReady (tasks : List ParsedTask) (t : ParsedTask) : Bool :=
  decide (t.status = TaskStatus.pending) && depsAllCompleted tasks t

/-- Events emitted by the scheduler, in order. -/
inductive SchedEvent
  | started (tid : Str)
  | finishedOk (tid : Str)
  | finishedFail (tid : Str)
deriving DecidableEq, Repr

/-- Local state of one executeTasksWithDependencies run: the shared task
records, the ready queue and in-flight set (as task ids), the hadFailure
flag, and the ordered event trace. -/
structure SchedState where
  tasks : List ParsedTask
  readyQueue : List Str
  inFlight : List Str
  hadFailure : Bool
  trace : List SchedEvent
deriving DecidableEq, Repr

/-- Admission while-loop: while no failure was seen, a worker slot is free
and the ready queue is nonempty, shift the next task, set it in_progress,
emit the started event and add it to the in-flight set. -/
def admitGo (cap : Nat) (tasks : List ParsedTask) (inFlight : List Str)
    (hadFailure : Bool) (trace : List SchedEvent) : List Str → SchedState
  | [] => { tasks := tasks, readyQueue := [], inFlight := inFlight,
            hadFailure := hadFailure, trace := trace }
  | tid :: rest =>
    if hadFailure then
      { tasks := tasks, readyQueue := tid :: rest, inFlight := inFlight,
        hadFailure := hadFailure, trace := trace }
    else if inFlight.length < cap then
      admitGo cap (setTaskStatus tasks tid TaskStatus.in_progress)
        (inFlight ++ [tid]) hadFailure (trace ++ [SchedEvent.started tid]) rest
    else
      { tasks := tasks, readyQueue := tid :: rest, inFlight := inFlight,
        hadFailure := hadFailure, trace := trace }

/-- Admission loop on the bundled state. -/
def admitLoop (cap : Nat) (st : SchedState) : SchedState :=
  admitGo cap st.tasks st.inFlight st.hadFailure st.trace st.readyQueue

/-- Ready-queue refill after a completion: walk the task list and append
every task that is now ready and in neither the queue nor the in-flight
set. -/
def refillQueue (st : SchedState) : List Str :=
  st.readyQueue ++
    ((st.tasks.filter (fun t =>
        isReady st.tasks t && !(st.readyQueue.contains t.id) &&
          !(st.inFlight.contains t.id))).map (fun t => t.id))

/-- Completion step: Promise.race picks one in-flight task (the pick index
resolves the nondeterministic finishing order), the oracle gives its
success or failure, its status and the hadFailure flag are updated, it
leaves the in-flight set, and on a failure-free run the ready queue is
recomputed. -/
def completeOne (st : SchedState) (pick : Nat) (oracle : Str → Bool) : SchedState :=
  match st.inFlight with
  | [] => st
  | _ :: _ =>
    let idx := pick % st.inFlight.length
    let tid := st.inFlight.getD idx []
    let ok := oracle tid
    let st1 : SchedState :=
      { tasks := setTaskStatus st.tasks tid
          (if ok then TaskStatus.completed else TaskStatus.failed)
        readyQueue := st.readyQueue
        inFlight := st.inFlight.erase tid
        hadFailure := st.hadFailure || !ok
        trace := st.trace ++
          [if ok then SchedEvent.finishedOk tid else SchedEvent.finishedFail tid] }
    if st1.hadFailure then st1 else { st1 with readyQueue := refillQueue st1 }

/-- Main scheduler loop with explicit fuel; none models a run that would
need more iterations than the fuel allows and never occurs with enough
fuel.  The abort check at the loop head is modeled by the aborted flag. -/
def schedLoopGo (cap : Nat) (aborted : Bool) (oracle : Str → Bool) :
    Nat → List Nat → SchedState → Option (Except String SchedState)
  | 0, _, _ => none
  | fuel + 1, picks, st =>
    if aborted then some (Except.error "Feature execution aborted")
    else
      let st1 := admitLoop cap st
      if st1.inFlight.isEmpty then some (Except.ok st1)
      else
        schedLoopGo cap aborted oracle fuel picks.tail
          (completeOne st1 (picks.headD 0) oracle)

/-- End-of-loop sweep: every still-pending task is marked blocked. -/
def markPendingBlocked (tasks : List ParsedTask) : List ParsedTask :=
  tasks.map (fun t =>
    if t.status = TaskStatus.pending then { t with status := TaskStatus.blocked } else t)

/-- Result of one scheduler run. -/
inductive SchedResult
  | ok (tasks : List ParsedTask) (trace : List SchedEvent)
  | error (msg : String) (tasks : List ParsedTask) (trace : List SchedEvent)
  | outOfFuel
deriving DecidableEq, Repr

/-- Post-loop finalization of executeTasksWithDependencies: after a task
failure the remaining pending tasks are blocked and an aggregate failure is
raised; with no failure but pending tasks left (zero in-flight and zero
ready), they are blocked and a cycle-detected error is raised; otherwise
the run succeeds. -/
def finalizeScheduler (st : SchedState) : SchedResult :=
  if st.hadFailure then
    SchedResult.error "One or more tasks failed during concurrent execution."
      (markPendingBlocked st.tasks) st.trace
  else if (st.tasks.filter (fun t => decide (t.status = TaskStatus.pending))).length > 0 then
    SchedResult.error "Task dependency cycle detected - pending tasks are blocked."
      (markPendingBlocked st.tasks) st.trace
  else
    SchedResult.ok st.tasks st.trace

/-- The concurrency cap: the setting (default 3) clamped to [1, 8]. -/
def resolveTaskConcurrency (setting : Option Nat) : Nat :=
  max 1 (min (setting.getD 3) 8)

/-- Initial scheduler state: unresolvable dependencies blocked up front,
the ready queue seeded with every initially ready task. -/
def initSchedState (tasks : List ParsedTask) : SchedState :=
  let tasks0 := markMissingDepsBlocked tasks
  { tasks := tasks0
    readyQueue := (tasks0.filter (fun t => isReady tasks0 t)).map (fun t => t.id)
    inFlight := []
    hadFailure := false
    trace := [] }

/-- Full embedding of executeTasksWithDependencies over the outcome oracle,
finishing-order picks and fuel. -/
def executeTasksWithDependencies (cap : Nat) (aborted : Bool) (oracle : Str → Bool)
    (picks : List Nat) (fuel : Nat) (tasks : List ParsedTask) : SchedResult :=
  match schedLoopGo cap aborted oracle fuel picks (initSchedState tasks) with
  | none => SchedResult.outOfFuel
  | some (Except.error msg) => SchedResult.error msg [] []
  | some (Except.ok stEnd) => finalizeScheduler stEnd

/-- Number of tasks that are pending or in progress; the termination
measure of the scheduler loop. -/
def pendingInProgressCount (tasks : List ParsedTask) : Nat :=
  tasks.countP (fun t =>
    decide (t.status = TaskStatus.pending) || decide (t.status = TaskStatus.in_progress))

/-- Scheduler state invariant: task ids are distinct, every queued id
resolves to a task that is ready right now, the queue and in-flight set are
duplicate-free, and every in-flight id resolves to an in_progress task. -/
def SchedInv (st : SchedState) : Prop :=
  (st.tasks.map (fun t => t.id)).Nodup ∧
  (∀ tid ∈ st.readyQueue, ∃ t, taskMapGet st.tasks tid = some t ∧ isReady st.tasks t = true) ∧
  st.readyQueue.Nodup ∧
  (∀ tid ∈ st.inFlight, ∃ t, taskMapGet st.tasks tid = some t ∧
    t.status = TaskStatus.in_progress) ∧
  st.inFlight.Nodup

/-- Outcome oracle under which every task call succeeds. -/
def allSucceed : Str → Bool := fun _ => true

/-- Scenario task A of the C2 example. -/
def taskA : ParsedTask :=
  { id := ['A'], description := [], filePath := none, phase := none,
    dependsOn := none, complexity := none, status := TaskStatus.pending }

/-- Scenario task B of the C2 example, depending on A. -/
def taskB : ParsedTask :=
  { id := ['B'], description := [], filePath := none, phase := none,
    dependsOn := some [['A']], complexity := none, status := TaskStatus.pending }

/-- Scenario task C of the C2 example, depending on A. -/
def taskC : ParsedTask :=
  { id := ['C'], description := [], filePath := none, phase := none,
    dependsOn := some [['A']], complexity := none, status := TaskStatus.pending }

/-- Cycle task A of the C3 example, depending on B. -/
def cycleA : ParsedTask :=
  { id := ['A'], description := [], filePath := none, phase := none,
    dependsOn := some [['B']], complexity := none, status := TaskStatus.pending }

/-- Cycle task B of the C3 example, depending on A. -/
def cycleB : ParsedTask :=
  { id := ['B'], description := [], filePath := none, phase := none,
    dependsOn := some [['A']], complexity := none, status := TaskStatus.pending }

/-! ## Plan parser (parseTasksFromSpec, parseTaskLine) -/

/-- Whitespace for the purposes of trim and the regex class backslash-s
(the ASCII members; the exotic unicode spaces never appear in task lines). -/
def isSpaceJS (c : Char) : Bool :=
  c == ' ' || c == '\t' || c == '\n' || c == '\r' || c == '\x0b' || c == '\x0c'

/-- Left part of JavaScript String.trim. -/
def trimL (s : Str) : Str := s.dropWhile isSpaceJS

/-- Right part of JavaScript String.trim. -/
def trimR (s : Str) : Str := (s.reverse.dropWhile isSpaceJS).reverse

/-- JavaScript String.trim. -/
def trimJS (s : Str) : Str := trimR (trimL s)

/-- JavaScript String.split on a single separator character: boundary
pieces are kept, so adjacent separators produce empty pieces. -/
def splitChar (sep : Char) : Str → List Str
  | [] => [[]]
  | c :: rest =>
    let r := splitChar sep rest
    if c = sep then [] :: r
    else
      match r with
      | [] => [[c]]
      | h :: t => (c :: h) :: t

/-- Split on every run boundary of a character-class predicate; the empty
boundary pieces are discarded later exactly where the source filters falsy
entries. -/
def splitPred (p : Char → Bool) : Str → List Str
  | [] => [[]]
  | c :: rest =>
    let r := splitPred p rest
    if p c then [] :: r
    else
      match r with
      | [] => [[c]]
      | h :: t => (c :: h) :: t

/-- Character-level prefix test. -/
def isPrefixOfCh : Str → Str → Bool
  | [], _ => true
  | _ :: _, [] => false
  | a :: as, b :: bs => a == b && isPrefixOfCh as bs

/-- Splits the string around the leftmost occurrence of the pattern,
returning the part before it and the part after it; none when the pattern
does not occur.  This is the leftmost-match discipline of a JavaScript
regex search for a literal. -/
def splitOnFirst (p : Str) : Str → Option (Str × Str)
  | [] => if isPrefixOfCh p [] then some ([], []) else none
  | c :: rest =>
    if isPrefixOfCh p (c :: rest) then some ([], (c :: rest).drop p.length)
    else (splitOnFirst p rest).map (fun x => (c :: x.1, x.2))

/-- Tail of the task-line regexes: backslash-s star followed by a
one-or-more dot capture anchored at the end.  The greedy whitespace run
gives one character back when the rest of the line is all whitespace, since
the capture needs at least one character. -/
def matchTailJS (rest : Str) : Option Str :=
  match rest with
  | [] => none
  | _ :: _ =>
    let r := rest.dropWhile isSpaceJS
    if r.isEmpty then some (rest.drop (rest.length - 1)) else some r

/-- Anchored head of the task-line pattern: the checkbox marker, a T id of
three digits and the colon; returns the id and the text after the colon. -/
def taskHeadMatch (s : Str) : Option (Str × Str) :=
  match s with
  | '-' :: ' ' :: '[' :: ' ' :: ']' :: ' ' :: 'T' :: d1 :: d2 :: d3 :: ':' :: rest =>
    if d1.isDigit && d2.isDigit && d3.isDigit then some (['T', d1, d2, d3], rest)
    else none
  | _ => none

/-- Leftmost match of the full task-line pattern over the line. -/
def taskLineMatch : Str → Option (Str × Str)
  | [] => none
  | c :: rest =>
    match taskHeadMatch (c :: rest) with
    | some (tid, after) =>
      match matchTailJS after with
      | some remainder => some (tid, remainder)
      | none => taskLineMatch rest
    | none => taskLineMatch rest

/-- Anchored case-insensitive field match of parseTaskLine (the patterns
File:, DependsOn: and Complexity:, given here lowercased), returning the
capture after the key and optional whitespace. -/
def fieldMatchCI (key : Str) (part : Str) : Option Str :=
  if (part.take key.length).map Char.toLower = key then matchTailJS (part.drop key.length)
  else none

/-- Separator class of the DependsOn id list: commas and whitespace. -/
def isDepSep (c : Char) : Bool := c == ',' || isSpaceJS c

/-- Optional fields accumulated over the parts loop of parseTaskLine. -/
structure TaskFields where
  filePath : Option Str
  dependsOn : Option (List Str)
  complexity : Option Complexity
deriving DecidableEq, Repr

/-- One iteration of the parts loop of parseTaskLine: try File, then
DependsOn (brackets stripped, ids split on comma/whitespace runs, empty
entries dropped, an empty list recorded as absent), then Complexity (by
lowercased first letter); an unrecognized part changes nothing. -/
def applyTaskPart (acc : TaskFields) (part : Str) : TaskFields :=
  match fieldMatchCI ['f', 'i', 'l', 'e', ':'] part with
  | some captured => { acc with filePath := some (trimJS captured) }
  | none =>
    match fieldMatchCI ['d', 'e', 'p', 'e', 'n', 'd', 's', 'o', 'n', ':'] part with
    | some captured =>
      let raw := (trimJS captured).filter (fun c => !(c == '[' || c == ']'))
      let deps := ((splitPred isDepSep raw).map trimJS).filter (fun d => !d.isEmpty)
      { acc with dependsOn := if deps.isEmpty then none else some deps }
    | none =>
      match fieldMatchCI ['c', 'o', 'm', 'p', 'l', 'e', 'x', 'i', 't', 'y', ':'] part with
      | some captured =>
        match (trimJS captured).map Char.toLower with
        | 'l' :: _ => { acc with complexity := some Complexity.low }
        | 'm' :: _ => { acc with complexity := some Complexity.medium }
        | 'h' :: _ => { acc with complexity := some Complexity.high }
        | _ => acc
      | none => acc

/-- Embedding of parseTaskLine: match the task pattern, split the remainder
on pipes, trim the parts and drop the empty ones, take the first part as
the description and fold the field patterns over the rest; the parsed task
starts pending and carries the current phase. -/
def parseTaskLine (line : Str) (currentPhase : Option Str) : Option ParsedTask :=
  match taskLineMatch line with
  | none => none
  | some (tid, remainder) =>
    let parts := ((splitChar '|' remainder).map trimJS).filter (fun p => !p.isEmpty)
    match parts with
    | [] => none
    | description :: restParts =>
      let fields := restParts.foldl applyTaskPart
        { filePath := none, dependsOn := none, complexity := none }
      some { id := tid, description := trimJS description, filePath := fields.filePath,
             phase := currentPhase, dependsOn := fields.dependsOn,
             complexity := fields.complexity, status := TaskStatus.pending }

/-- Anchored phase-header pattern: two hashes, optional whitespace and a
nonempty capture; the stored phase is the trimmed capture. -/
def phaseHeaderMatch (s : Str) : Option Str :=
  match s with
  | '#' :: '#' :: rest => (matchTailJS rest).map trimJS
  | _ => none

/-- Line loop of the fenced-block branch of parseTasksFromSpec: phase
headers update the current phase, checkbox lines are parsed as tasks, and
everything else is skipped. -/
def processLines : List Str → Option Str → List ParsedTask
  | [], _ => []
  | line :: rest, currentPhase =>
    let trimmedLine := trimJS line
    match phaseHeaderMatch trimmedLine with
    | some phase => processLines rest (some phase)
    | none =>
      if isPrefixOfCh ['-', ' ', '[', ' ', ']'] trimmedLine then
        match parseTaskLine trimmedLine currentPhase with
        | some t => t :: processLines rest currentPhase
        | none => processLines rest currentPhase
      else processLines rest currentPhase

/-- Extraction of the fenced tasks block: the literal opening marker, a
greedy whitespace run, then a lazy capture up to the first closing fence;
none when the block is absent or unclosed. -/
def extractTasksBlock (content : Str) : Option Str :=
  match splitOnFirst ['`', '`', '`', 't', 'a', 's', 'k', 's'] content with
  | none => none
  | some (_, after) =>
    let afterWs := after.dropWhile isSpaceJS
    match splitOnFirst ['`', '`', '`'] afterWs with
    | none => none
    | some (captured, _) => some captured

/-- One line of the fallback pattern (checkbox marker, T id, colon,
anything to the end of the line), matched anywhere in the line. -/
def fallbackMatchLine : Str → Option Str
  | [] => none
  | c :: rest =>
    match taskHeadMatch (c :: rest) with
    | some _ => some (c :: rest)
    | none => fallbackMatchLine rest

/-- Embedding of parseTasksFromSpec: parse the fenced tasks block line by
line; with no block, fall back to matching task lines anywhere in the
content (the fallback never sets a phase). -/
def parseTasksFromSpec (specContent : Str) : List ParsedTask :=
  match extractTasksBlock specContent with
  | some tasksContent => processLines (splitChar '\n' tasksContent) none
  | none =>
    ((splitChar '\n' specContent).filterMap fallbackMatchLine).filterMap
      (fun line => parseTaskLine line none)

/-- The spelled-out complexity of a task line. -/
def complexityStr : Complexity → Str
  | Complexity.low => ['l', 'o', 'w']
  | Complexity.medium => ['m', 'e', 'd', 'i', 'u', 'm']
  | Complexity.high => ['h', 'i', 'g', 'h']

/-- Modelled from the spec: the repository parses task lines but contains
no serializer for them (the plan text comes from the planning agent, which
the prompts instruct to emit this exact format); the spec's task block
format line defines one well-formed task line as the checkbox marker, the
T id and colon, then the description, File, DependsOn and Complexity
fields separated by pipes. -/
def serializeTaskLine (t : ParsedTask) : Str :=
  ['-', ' ', '[', ' ', ']', ' '] ++ t.id ++ [':', ' '] ++ t.description ++
    [' ', '|', ' ', 'F', 'i', 'l', 'e', ':', ' '] ++ t.filePath.getD [] ++
    [' ', '|', ' ', 'D', 'e', 'p', 'e', 'n', 'd', 's', 'O', 'n', ':', ' '] ++
    List.intercalate [',', ' '] (t.dependsOn.getD []) ++
    [' ', '|', ' ', 'C', 'o', 'm', 'p', 'l', 'e', 'x', 'i', 't', 'y', ':', ' '] ++
    complexityStr (t.complexity.getD Complexity.low)

/-- Modelled from the spec: a whole well-formed tasks block, the serialized
lines inside a tasks fence. -/
def serializeTasksBlock (ts : List ParsedTask) : Str :=
  ['`', '`', '`', 't', 'a', 's', 'k', 's', '\n'] ++
    List.intercalate ['\n'] (ts.map serializeTaskLine) ++ ['\n', '`', '`', '`']

/-- Characters that never disturb the task-line machinery: not a pipe, not
a newline, not a backtick. -/
def goodChar (c : Char) : Bool := !(c == '|') && !(c == '\n') && !(c == '`')

/-- A well-formed free-text field of a task line: nonempty, no disturbing
character, and already trimmed at both ends. -/
def WFStr (s : Str) : Prop :=
  s ≠ [] ∧ (∀ c ∈ s, goodChar c = true) ∧
    isSpaceJS (s.headD ' ') = false ∧ isSpaceJS (s.getLastD ' ') = false

/-- A well-formed dependency id: nonempty with no disturbing, bracket,
comma or whitespace character. -/
def WFDep (s : Str) : Prop :=
  s ≠ [] ∧ ∀ c ∈ s, goodChar c = true ∧ isDepSep c = false ∧
    (c == '[' || c == ']') = false

/-- A well-formed parsed task record, matching one well-formed task line of
the block format: a three-digit T id, well-formed description and file
path, a nonempty well-formed dependency list, some complexity, no phase,
and status pending. -/
def WFTask (t : ParsedTask) : Prop :=
  (∃ d1 d2 d3, t.id = ['T', d1, d2, d3] ∧ d1.isDigit = true ∧ d2.isDigit = true ∧
    d3.isDigit = true) ∧
  WFStr t.description ∧
  (∃ p, t.filePath = some p ∧ WFStr p) ∧
  (∃ ds, t.dependsOn = some ds ∧ ds ≠ [] ∧ ∀ d ∈ ds, WFDep d) ∧
  (∃ c, t.complexity = some c) ∧
  t.phase = none ∧ t.status = TaskStatus.pending

/-- Concrete well-formed sample task for evaluating the round trip. -/
def sampleTask1 : ParsedTask :=
  { id := ['T', '0', '0', '1'],
    description := ['S', 'e', 't', 'u', 'p'],
    filePath := some ['s', 'r', 'c', '/', 'a', '.', 't', 's'],
    phase := none,
    dependsOn := some [['T', '0', '0', '2']],
    complexity := some Complexity.low,
    status := TaskStatus.pending }

/-- Second concrete well-formed sample task for evaluating the round
trip. -/
def sampleTask2 : ParsedTask :=
  { id := ['T', '0', '0', '2'],
    description := ['A', 'd', 'd', ' ', 'A', 'P', 'I'],
    filePath := some ['s', 'r', 'c', '/', 'b', '.', 't', 's'],
    phase := none,
    dependsOn := some [['T', '0', '0', '1'], ['T', '0', '0', '3']],
    complexity := some Complexity.medium,
    status := TaskStatus.pending }

/-! ## Plan-approval resolution with recovery (resolvePlanApproval) -/

/-- Persisted feature record as far as resolvePlanApproval touches it. -/
structure FeatureRec where
  status : String
  planSpec : Option PlanSpecRec
  justFinishedAt : Option Nat
deriving DecidableEq, Repr

/-- Orchestrator state seen by resolvePlanApproval: the pending-approval
map and the on-disk feature records keyed by (projectPath, featureId). -/
structure OrchSt where
  pendingApprovals : List (FeatureId × PendingRec)
  features : List ((String × FeatureId) × FeatureRec)
deriving DecidableEq, Repr

/-- Key test for a feature record entry. -/
def keyMatches (pp : String) (fid : FeatureId) (e : (String × FeatureId) × FeatureRec) : Bool :=
  decide (e.1.1 = pp ∧ e.1.2 = fid)

/-- Embedding of loadFeature: read the feature record from disk. -/
def loadFeature (st : OrchSt) (pp : String) (fid : FeatureId) : Option FeatureRec :=
  (st.features.find? (keyMatches pp fid)).map Prod.snd

/-- Rewrite of one feature record on disk; a missing record is a no-op, as
the source swallows the read error. -/
def updateFeatureIn (st : OrchSt) (pp : String) (fid : FeatureId)
    (f : FeatureRec → FeatureRec) : OrchSt :=
  { st with features :=
      st.features.map (fun e => if keyMatches pp fid e then (e.1, f e.2) else e) }

/-- Embedding of updateFeaturePlanSpec: initialize a missing planSpec with
the pending defaults, then apply the field updates.  The version bump for
changed content (line 3042) compares updates.content with the already
assigned planSpec.content and is therefore never taken. -/
def updateFeaturePlanSpecApply (upd : PlanSpecRec → PlanSpecRec) (feat : FeatureRec) :
    FeatureRec :=
  let ps := feat.planSpec.getD
    { status := "pending", version := 1, reviewedByUser := false,
      taskStateVersion := 0, content := none, approvedAt := none }
  { feat with planSpec := some (upd ps) }

/-- Embedding of updateFeatureStatus: set the status, stamping
justFinishedAt only for waiting_approval. -/
def updateFeatureStatusApply (now : Nat) (status : String) (feat : FeatureRec) : FeatureRec :=
  { feat with status := status
              justFinishedAt := if status = "waiting_approval" then some now else none }

/-- updateFeaturePlanSpec lifted to the orchestrator state. -/
def updateFeaturePlanSpecIn (st : OrchSt) (pp : String) (fid : FeatureId)
    (upd : PlanSpecRec → PlanSpecRec) : OrchSt :=
  updateFeatureIn st pp fid (updateFeaturePlanSpecApply upd)

/-- updateFeatureStatus lifted to the orchestrator state. -/
def updateFeatureStatusIn (st : OrchSt) (pp : String) (fid : FeatureId) (now : Nat)
    (status : String) : OrchSt :=
  updateFeatureIn st pp fid (updateFeatureStatusApply now status)

/-- Field updates of the recovery approve branch; the JavaScript
editedPlan || feature.planSpec.content fallback is Option.orElse here (the
source also falls back on an empty edited plan, which Option does not
distinguish). -/
def recoveryApproveUpdate (now : Nat) (editedPlan : Option String) :
    PlanSpecRec → PlanSpecRec :=
  fun ps =>
    { ps with status := "approved"
              approvedAt := some now
              reviewedByUser := true
              content := editedPlan.orElse (fun _ => ps.content) }

/-- Field updates of the recovery reject branch. -/
def recoveryRejectUpdate : PlanSpecRec → PlanSpecRec :=
  fun ps => { ps with status := "rejected", reviewedByUser := true }

/-- Field updates of the normal (waiter-found) resolution path; content is
assigned the edited plan even when absent, as Object.assign copies an
explicitly undefined value. -/
def normalResolveUpdate (now : Nat) (approved : Bool) (editedPlan : Option String) :
    PlanSpecRec → PlanSpecRec :=
  fun ps =>
    { ps with status := if approved then "approved" else "rejected"
              approvedAt := if approved then some now else none
              reviewedByUser := true
              content := editedPlan }

/-- Observable outcome of one resolvePlanApproval call. -/
structure ResolveOutcome where
  success : Bool
  error : Option String
  restarted : Bool
  emittedPlanRejected : Bool
  resolvedWaiter : Option Nat
deriving DecidableEq, Repr

/-- The failure result returned when no waiter exists and recovery is not
possible; the state is left untouched. -/
def noPendingApprovalResult (fid : FeatureId) (st : OrchSt) : ResolveOutcome × OrchSt :=
  ({ success := false
     error := some ("No pending approval for feature " ++ fid)
     restarted := false
     emittedPlanRejected := false
     resolvedWaiter := none }, st)

/-- Embedding of resolvePlanApproval: with a registered waiter the decision
is applied and the waiter resolved; with no waiter, recovery applies the
decision anyway when a client project path is supplied and the persisted
planSpec status is generated (approve persists the plan as approved and
restarts execution with a continuation prompt; reject marks the planSpec
rejected and reverts the feature to backlog); otherwise the call fails with
no pending approval and changes nothing. -/
def resolvePlanApproval (st : OrchSt) (fid : FeatureId) (approved : Bool)
    (editedPlan feedback : Option String) (projectPathFromClient : Option String)
    (now : Nat) : ResolveOutcome × OrchSt :=
  match mapGet st.pendingApprovals fid with
  | none =>
    match projectPathFromClient with
    | none => noPendingApprovalResult fid st
    | some pp =>
      match loadFeature st pp fid with
      | none => noPendingApprovalResult fid st
      | some feat =>
        match feat.planSpec with
        | none => noPendingApprovalResult fid st
        | some ps =>
          if ps.status = "generated" then
            if approved then
              let st1 := updateFeaturePlanSpecIn st pp fid (recoveryApproveUpdate now editedPlan)
              ({ success := true, error := none, restarted := true,
                 emittedPlanRejected := false, resolvedWaiter := none }, st1)
            else
              let st1 := updateFeaturePlanSpecIn st pp fid recoveryRejectUpdate
              let st2 := updateFeatureStatusIn st1 pp fid now "backlog"
              ({ success := true, error := none, restarted := false,
                 emittedPlanRejected := true, resolvedWaiter := none }, st2)
          else noPendingApprovalResult fid st
  | some pending =>
    let st1 := updateFeaturePlanSpecIn st pending.projectPath fid
      (normalResolveUpdate now approved editedPlan)
    let st2 := { st1 with pendingApprovals := mapDelete st1.pendingApprovals fid }
    ({ success := true, error := none, restarted := false,
       emittedPlanRejected := !approved && feedback.isSome,
       resolvedWaiter := some pending.waiter }, st2)

end Automaker

namespace Automaker

/-! ## Claim theorems for the registry, quality gate and final status -/

/-- C1: at most one RunningFeature entry exists per feature id: starting a
feature whose id is already registered throws "already running" and leaves
the registry untouched with no register action; otherwise the id is
registered synchronously before any asynchronous work, the in-flight
registry keeps distinct ids, and the entry is removed again by the finally
block whether execution completes, errors, or is stopped. -/
theorem executeFeature_registry_exclusive :
    (∀ (reg : List FeatureId) (fid : FeatureId) (oc : ExecOutcome), fid ∈ reg →
        executeFeatureRun reg fid oc =
          { result := Except.error "already running"
            registryDuring := reg
            registryFinal := reg
            trace := [] }) ∧
    (∀ (reg : List FeatureId) (fid : FeatureId) (oc : ExecOutcome), fid ∉ reg →
        (executeFeatureRun reg fid oc).registryDuring = fid :: reg ∧
        (reg.Nodup → (executeFeatureRun reg fid oc).registryDuring.Nodup) ∧
        (executeFeatureRun reg fid oc).trace =
          [ExecAction.register, ExecAction.asyncWork, ExecAction.removeEntry] ∧
        (executeFeatureRun reg fid oc).registryFinal = reg) := by
  constructor
  · intro reg fid oc h
    simp [executeFeatureRun, h]
  · intro reg fid oc h
    refine ⟨?_, ?_, ?_, ?_⟩
    · simp [executeFeatureRun, h]
    · intro hnd
      simpa [executeFeatureRun, h] using List.nodup_cons.mpr ⟨h, hnd⟩
    · simp [executeFeatureRun, h]
    · simp [executeFeatureRun, h]

/-- Witness for C1 at concrete inputs: feature f1 is already running in one
registry and absent from another. -/
theorem executeFeature_registry_exclusive_witness :
    executeFeatureRun ["f1"] "f1" ExecOutcome.success =
      { result := Except.error "already running"
        registryDuring := ["f1"]
        registryFinal := ["f1"]
        trace := [] } ∧
    (executeFeatureRun ["f2"] "f1" ExecOutcome.success).registryDuring = ["f1", "f2"] ∧
    (executeFeatureRun ["f2"] "f1" ExecOutcome.success).registryFinal = ["f2"] := by
  refine ⟨executeFeature_registry_exclusive.1 ["f1"] "f1" ExecOutcome.success (by decide), ?_, ?_⟩
  · exact (executeFeature_registry_exclusive.2 ["f2"] "f1" ExecOutcome.success (by decide)).1
  · exact (executeFeature_registry_exclusive.2 ["f2"] "f1" ExecOutcome.success (by decide)).2.2.2

/-- C4: the quality gate runs Lint, Type check, Tests, Build in that fixed
order, stops at the first failing command marking it fail and all later
checks skipped, passes overall exactly when every command succeeds, and on
the lint-pass/typecheck-fail scenario reports typecheck fail, Tests and
Build skipped, and overall failure. -/
theorem runQualityChecks_spec :
    (∀ outcome : String → Bool,
        (runQualityChecks outcome).2.map Prod.fst = ["Lint", "Type check", "Tests", "Build"]) ∧
    (∀ outcome : String → Bool,
        (runQualityChecks outcome).1 = verificationChecks.all (fun c => outcome c.1)) ∧
    (∀ (outcome : String → Bool) (pre : List (String × String)) (c : String × String)
        (rest : List (String × String)),
        (∀ x ∈ pre, outcome x.1 = true) → outcome c.1 = false →
        runChecksFrom outcome (pre ++ c :: rest) =
          pre.map (fun x => (x.2, CheckStatus.pass)) ++
            (c.2, CheckStatus.fail) :: rest.map (fun x => (x.2, CheckStatus.skipped))) ∧
    runQualityChecks lintPassTypecheckFail =
      (false,
        [("Lint", CheckStatus.pass), ("Type check", CheckStatus.fail),
         ("Tests", CheckStatus.skipped), ("Build", CheckStatus.skipped)]) := by
  refine ⟨?_, ?_, ?_, ?_⟩
  · intro outcome
    simp only [runQualityChecks, verificationChecks, runChecksFrom]
    by_cases h1 : outcome "npm run lint" <;>
      by_cases h2 : outcome "npm run typecheck" <;>
        by_cases h3 : outcome "npm test" <;>
          by_cases h4 : outcome "npm run build" <;>
            simp [h1, h2, h3, h4, runChecksFrom]
  · intro outcome
    simp [runQualityChecks, verificationChecks, runChecksAllPassed, List.all]
  · intro outcome pre c rest hpre hc
    induction pre with
    | nil => simp [runChecksFrom, hc]
    | cons x xs ih =>
      have hx : outcome x.1 = true := hpre x (List.mem_cons_self x xs)
      have hxs : ∀ y ∈ xs, outcome y.1 = true := fun y hy => hpre y (List.mem_cons_of_mem x hy)
      simp [runChecksFrom, hx, ih hxs]
  · decide

/-- Witness for C4 at concrete inputs: an all-passing outcome and a
first-check prefix for the stop-at-first-failure clause. -/
theorem runQualityChecks_spec_witness :
    (runQualityChecks (fun _ => true)).2.map Prod.fst =
      ["Lint", "Type check", "Tests", "Build"] ∧
    runChecksFrom lintPassTypecheckFail
        ([("npm run lint", "Lint")] ++ ("npm run typecheck", "Type check") ::
          [("npm test", "Tests"), ("npm run build", "Build")]) =
      [("Lint", CheckStatus.pass)] ++
        ("Type check", CheckStatus.fail) ::
          [("Tests", CheckStatus.skipped), ("Build", CheckStatus.skipped)] := by
  constructor
  · exact runQualityChecks_spec.1 (fun _ => true)
  · exact runQualityChecks_spec.2.2.1 lintPassTypecheckFail
      [("npm run lint", "Lint")] ("npm run typecheck", "Type check")
      [("npm test", "Tests"), ("npm run build", "Build")]
      (by decide) (by decide)

/-- C5: a feature execution that completes without an exception is
persisted as verified exactly when the quality gate and the judge both
passed and automated testing is enabled (skipTests false); in every other
completion case the final status is waiting_approval. -/
theorem finalizeFeature_status_boundary :
    ∀ (skipTests : Bool) (gateResult : Nat → Bool) (verdict : Nat → Verdict),
      ((finalizeFeature skipTests gateResult verdict).finalStatus = "verified" ↔
        (finalizeFeature skipTests gateResult verdict).qualityPassed = true ∧
          (finalizeFeature skipTests gateResult verdict).judgePassed = true ∧
          skipTests = false) ∧
      ((finalizeFeature skipTests gateResult verdict).finalStatus = "verified" ∨
        (finalizeFeature skipTests gateResult verdict).finalStatus = "waiting_approval") := by
  intro skipTests gateResult verdict
  simp only [finalizeFeature]
  constructor
  · cases hq : runQualityPhase skipTests gateResult <;>
      cases hj : runJudgePhase (runQualityPhase skipTests gateResult) verdict <;>
        rw [hq] at hj <;> cases skipTests <;> simp [hq, hj]
  · cases hq : runQualityPhase skipTests gateResult <;>
      cases hj : runJudgePhase (runQualityPhase skipTests gateResult) verdict <;>
        rw [hq] at hj <;> cases skipTests <;> simp [hq, hj]

/-! ## Claim theorems for the failure circuit breaker -/

/-- C6: the breaker counts only failures inside the rolling window, trips
exactly when the in-window count reaches 3 or the error is quota/rate
limit, a trip force-stops the auto loop and emits the paused event, a
success clears the counter, and the concrete sequence two failures, one
success, two failures never trips while three straight failures or a quota
error do. -/
theorem failureBreaker_spec :
    (∀ (now : Nat) (etype emsg : String) (st : BreakerState),
        ∀ f ∈ (trackFailureAndCheckPause now etype emsg st).2.consecutiveFailures,
          now - f.timestamp < FAILURE_WINDOW_MS) ∧
    (∀ (now : Nat) (etype emsg : String) (st : BreakerState),
        (trackFailureAndCheckPause now etype emsg st).1 = true ↔
          CONSECUTIVE_FAILURE_THRESHOLD ≤
              ((st.consecutiveFailures ++
                  [({ timestamp := now, error := emsg } : FailureEntry)]).filter
                (fun f => now - f.timestamp < FAILURE_WINDOW_MS)).length ∨
            isFatalErrorType etype = true) ∧
    (∀ st : BreakerState, (recordSuccess st).consecutiveFailures = []) ∧
    (∀ (now : Nat) (etype emsg : String) (st : BreakerState),
        (trackFailureAndCheckPause now etype emsg st).1 = true →
        st.pausedDueToFailures = false →
          (handleFeatureFailure now etype emsg st).1.autoLoopRunning = false ∧
            (handleFeatureFailure now etype emsg st).2 = true) ∧
    (let s0 : BreakerState := { consecutiveFailures := [], pausedDueToFailures := false,
                                autoLoopRunning := true }
     let r1 := handleFeatureFailure 0 "api_error" "boom" s0
     let r2 := handleFeatureFailure 10 "api_error" "boom" r1.1
     let s3 := recordSuccess r2.1
     let r4 := handleFeatureFailure 20 "api_error" "boom" s3
     let r5 := handleFeatureFailure 30 "api_error" "boom" r4.1
     r1.2 = false ∧ r2.2 = false ∧ r4.2 = false ∧ r5.2 = false ∧
       r5.1.autoLoopRunning = true ∧ r5.1.pausedDueToFailures = false) ∧
    (let s0 : BreakerState := { consecutiveFailures := [], pausedDueToFailures := false,
                                autoLoopRunning := true }
     let r1 := handleFeatureFailure 0 "api_error" "boom" s0
     let r2 := handleFeatureFailure 10 "api_error" "boom" r1.1
     let r3 := handleFeatureFailure 20 "api_error" "boom" r2.1
     r3.2 = true ∧ r3.1.autoLoopRunning = false ∧ r3.1.pausedDueToFailures = true) ∧
    (let s0 : BreakerState := { consecutiveFailures := [], pausedDueToFailures := false,
                                autoLoopRunning := true }
     let r1 := handleFeatureFailure 0 "quota_exhausted" "limit hit" s0
     r1.2 = true ∧ r1.1.autoLoopRunning = false) := by
  have hstate : ∀ (now : Nat) (etype emsg : String) (st : BreakerState),
      (trackFailureAndCheckPause now etype emsg st).2.consecutiveFailures =
        (st.consecutiveFailures ++
            [({ timestamp := now, error := emsg } : FailureEntry)]).filter
          (fun f => now - f.timestamp < FAILURE_WINDOW_MS) := by
    intro now etype emsg st
    simp only [trackFailureAndCheckPause]
    split
    · rfl
    · split <;> rfl
  have hpaused : ∀ (now : Nat) (etype emsg : String) (st : BreakerState),
      (trackFailureAndCheckPause now etype emsg st).2.pausedDueToFailures =
        st.pausedDueToFailures := by
    intro now etype emsg st
    simp only [trackFailureAndCheckPause]
    split
    · rfl
    · split <;> rfl
  refine ⟨?_, ?_, ?_, ?_, by decide, by decide, by decide⟩
  · intro now etype emsg st f hf
    rw [hstate] at hf
    exact of_decide_eq_true (List.mem_filter.mp hf).2
  · intro now etype emsg st
    simp only [trackFailureAndCheckPause]
    split
    · rename_i h
      simpa using Or.inl h
    · rename_i h
      split
      · rename_i h2
        simpa using Or.inr h2
      · rename_i h2
        constructor
        · intro hfalse
          exact absurd hfalse (by simp)
        · intro hor
          rcases hor with h3 | h3
          · exact absurd h3 h
          · exact absurd h3 h2
  · intro st
    rfl
  · intro now etype emsg st htrip hnp
    have hst := hpaused now etype emsg st
    rw [hnp] at hst
    constructor
    · simp [handleFeatureFailure, htrip, signalShouldPause, hst]
    · simp [handleFeatureFailure, htrip, signalShouldPause, hst]

/-- Witness for C6 at concrete inputs: the rolling-window clause and the
pause clause applied at a three-failure state. -/
theorem failureBreaker_spec_witness :
    (∀ f ∈ (trackFailureAndCheckPause 100 "api_error" "boom"
        { consecutiveFailures := [], pausedDueToFailures := false,
          autoLoopRunning := true }).2.consecutiveFailures,
        100 - f.timestamp < FAILURE_WINDOW_MS) ∧
    ((handleFeatureFailure 20 "api_error" "boom"
        { consecutiveFailures := [{ timestamp := 0, error := "boom" },
                                  { timestamp := 10, error := "boom" }],
          pausedDueToFailures := false,
          autoLoopRunning := true }).1.autoLoopRunning = false) := by
  constructor
  · exact failureBreaker_spec.1 100 "api_error" "boom"
      { consecutiveFailures := [], pausedDueToFailures := false, autoLoopRunning := true }
  · exact (failureBreaker_spec.2.2.2.1 20 "api_error" "boom"
      { consecutiveFailures := [{ timestamp := 0, error := "boom" },
                                { timestamp := 10, error := "boom" }],
        pausedDueToFailures := false,
        autoLoopRunning := true } (by decide) rfl).1

/-! ## Claim theorems for the approval-waiter registration -/

/-- C7 counterexample: with an outstanding waiter for feat-1, registering a
second waiter is not rejected: the call installs the new waiter, invokes no
rejection, and the earlier waiter is silently discarded from the map,
contradicting the claim that a second registration is rejected immediately
and the earlier waiter never silently discarded. -/
theorem waitForPlanApproval_second_waiter_counterexample :
    (waitForPlanApprovalRegister [("feat-1", { waiter := 1, projectPath := "proj" })]
        "feat-1" { waiter := 2, projectPath := "proj" }).1 =
      [("feat-1", { waiter := 2, projectPath := "proj" })] ∧
    (waitForPlanApprovalRegister [("feat-1", { waiter := 1, projectPath := "proj" })]
        "feat-1" { waiter := 2, projectPath := "proj" }).2 = none ∧
    ¬ (mapGet (waitForPlanApprovalRegister
          [("feat-1", { waiter := 1, projectPath := "proj" })]
          "feat-1" { waiter := 2, projectPath := "proj" }).1 "feat-1" =
        some { waiter := 1, projectPath := "proj" }) := by
  refine ⟨rfl, rfl, ?_⟩
  decide

/-- Lookup after a JavaScript Map.set finds the just-written value. -/
theorem mapGet_mapSet {α : Type} (m : List (FeatureId × α)) (k : FeatureId) (v : α) :
    mapGet (mapSet m k v) k = some v := by
  induction m with
  | nil => simp [mapSet, mapGet]
  | cons e rest ih =>
    by_cases h : e.1 = k
    · simp [mapSet, mapGet, h]
    · have hne : ¬ k = e.1 := fun hk => h hk.symm
      simp [mapSet, mapGet, h, hne, ih]

/-- Keys of the map after a JavaScript Map.set: unchanged when the key was
present, otherwise extended by the new key. -/
theorem mapSet_keys {α : Type} (m : List (FeatureId × α)) (k : FeatureId) (v : α) :
    (mapSet m k v).map Prod.fst =
      if k ∈ m.map Prod.fst then m.map Prod.fst else m.map Prod.fst ++ [k] := by
  induction m with
  | nil => simp [mapSet]
  | cons e rest ih =>
    by_cases h : e.1 = k
    · simp [mapSet, h]
    · have hne : ¬ k = e.1 := fun hk => h hk.symm
      by_cases hmem : k ∈ rest.map Prod.fst
      · simp [mapSet, h, hne, hmem, ih]
      · simp [mapSet, h, hne, hmem, ih]

/-- C7 amended: registering an approval waiter for a feature that already
has an outstanding waiter is not rejected; the new waiter silently replaces
the earlier one via Map.set, no rejection is delivered to the earlier
waiter, and the map still holds at most one waiter per feature id. -/
theorem waitForPlanApprovalRegister_replaces :
    ∀ (pending : List (FeatureId × PendingRec)) (fid : FeatureId) (entry : PendingRec),
      mapGet (waitForPlanApprovalRegister pending fid entry).1 fid = some entry ∧
      (waitForPlanApprovalRegister pending fid entry).2 = none ∧
      ((pending.map Prod.fst).Nodup →
        ((waitForPlanApprovalRegister pending fid entry).1.map Prod.fst).Nodup) := by
  intro pending fid entry
  refine ⟨mapGet_mapSet pending fid entry, rfl, ?_⟩
  · intro hnd
    simp only [waitForPlanApprovalRegister]
    rw [mapSet_keys]
    split
    · exact hnd
    · rename_i hmem
      simp [List.nodup_append, hnd, hmem]

/-- Witness for C7 amended at a concrete input with an existing waiter. -/
theorem waitForPlanApprovalRegister_replaces_witness :
    mapGet (waitForPlanApprovalRegister
        [("feat-1", { waiter := 1, projectPath := "proj" })]
        "feat-1" { waiter := 2, projectPath := "proj" }).1 "feat-1" =
      some { waiter := 2, projectPath := "proj" } ∧
    ((waitForPlanApprovalRegister
        [("feat-1", { waiter := 1, projectPath := "proj" })]
        "feat-1" { waiter := 2, projectPath := "proj" }).1.map Prod.fst).Nodup := by
  constructor
  · exact (waitForPlanApprovalRegister_replaces
      [("feat-1", { waiter := 1, projectPath := "proj" })]
      "feat-1" { waiter := 2, projectPath := "proj" }).1
  · exact (waitForPlanApprovalRegister_replaces
      [("feat-1", { waiter := 1, projectPath := "proj" })]
      "feat-1" { waiter := 2, projectPath := "proj" }).2.2 (by decide)

/-! ## Claim theorems for the plan-spec version protocol -/

/-- Inversion lemma for the retry loop: a successful result comes from some
verified attempt, whose written spec carries the version read by that
attempt plus one. -/
theorem updatePlanSpecWithRetryGo_some_inv (reads : Nat → PlanSpecRec)
    (verifyOk : Nat → Bool) (updater : PlanSpecRec → PlanSpecRec) :
    ∀ (remaining attempt : Nat) (ps : PlanSpecRec),
      updatePlanSpecWithRetryGo reads verifyOk updater remaining attempt = some ps →
      ∃ i, attempt ≤ i ∧ i < attempt + remaining ∧ verifyOk i = true ∧
        ps = updatePlanSpecAttempt (reads i) updater := by
  intro remaining
  induction remaining with
  | zero => intro attempt ps h; exact absurd h (by simp [updatePlanSpecWithRetryGo])
  | succ r ih =>
    intro attempt ps h
    simp only [updatePlanSpecWithRetryGo] at h
    by_cases hv : verifyOk attempt = true
    · rw [if_pos hv] at h
      exact ⟨attempt, Nat.le_refl _, by omega, hv, (Option.some_inj.mp h).symm⟩
    · rw [if_neg (by simpa using hv)] at h
      obtain ⟨i, h1, h2, h3, h4⟩ := ih (attempt + 1) ps h
      exact ⟨i, by omega, by omega, h3, h4⟩

/-- C9: every successful write through updatePlanSpecWithRetry carries
taskStateVersion equal to the value read at the start of that attempt plus
one, whatever the updater wrote into that field; consequently a sequence of
successful sequential updates makes taskStateVersion strictly increasing. -/
theorem updatePlanSpec_version_protocol :
    (∀ (stored : PlanSpecRec) (updater : PlanSpecRec → PlanSpecRec),
        (updatePlanSpecAttempt stored updater).taskStateVersion =
          stored.taskStateVersion + 1) ∧
    (∀ (stored : PlanSpecRec) (v : Nat),
        (updatePlanSpecAttempt stored
            (fun s => { s with taskStateVersion := v })).taskStateVersion =
          stored.taskStateVersion + 1) ∧
    (∀ (reads : Nat → PlanSpecRec) (verifyOk : Nat → Bool)
        (updater : PlanSpecRec → PlanSpecRec) (ps : PlanSpecRec),
        updatePlanSpecWithRetry reads verifyOk updater = some ps →
        ∃ i, i < 5 ∧ verifyOk i = true ∧
          ps.taskStateVersion = (reads i).taskStateVersion + 1) ∧
    (∀ (stored : PlanSpecRec) (us : List (PlanSpecRec → PlanSpecRec)),
        (applyPlanSpecUpdates stored us).taskStateVersion =
          stored.taskStateVersion + us.length) ∧
    (∀ (stored : PlanSpecRec) (us : List (PlanSpecRec → PlanSpecRec)), us ≠ [] →
        stored.taskStateVersion < (applyPlanSpecUpdates stored us).taskStateVersion) := by
  have hlen : ∀ (stored : PlanSpecRec) (us : List (PlanSpecRec → PlanSpecRec)),
      (applyPlanSpecUpdates stored us).taskStateVersion =
        stored.taskStateVersion + us.length := by
    intro stored us
    induction us generalizing stored with
    | nil => simp [applyPlanSpecUpdates]
    | cons u rest ih =>
      simp only [applyPlanSpecUpdates, List.length_cons]
      rw [ih]
      simp [updatePlanSpecAttempt]
      omega
  refine ⟨fun stored updater => rfl, fun stored v => rfl, ?_, hlen, ?_⟩
  · intro reads verifyOk updater ps h
    obtain ⟨i, _, h2, h3, h4⟩ :=
      updatePlanSpecWithRetryGo_some_inv reads verifyOk updater 5 0 ps h
    refine ⟨i, by omega, h3, ?_⟩
    rw [h4]
    rfl
  · intro stored us hne
    rw [hlen]
    have : us.length ≠ 0 := fun h0 => hne (List.length_eq_zero.mp h0)
    omega

/-- Witness for C9 at concrete inputs: a retry run whose first attempt
verifies, and a two-update sequence. -/
theorem updatePlanSpec_version_protocol_witness :
    (∃ i, i < 5 ∧ (fun _ => true) i = true ∧
      (updatePlanSpecAttempt
          { status := "generated", version := 1, reviewedByUser := false,
            taskStateVersion := 7, content := none, approvedAt := none }
          id).taskStateVersion =
        ((fun _ => { status := "generated", version := 1, reviewedByUser := false,
                     taskStateVersion := 7, content := none, approvedAt := none } :
            Nat → PlanSpecRec) i).taskStateVersion + 1) ∧
    ({ status := "generated", version := 1, reviewedByUser := false,
       taskStateVersion := 7, content := none, approvedAt := none : PlanSpecRec
     }).taskStateVersion <
      (applyPlanSpecUpdates
          { status := "generated", version := 1, reviewedByUser := false,
            taskStateVersion := 7, content := none, approvedAt := none }
          [id, id]).taskStateVersion := by
  constructor
  · exact updatePlanSpec_version_protocol.2.2.1
      (fun _ => { status := "generated", version := 1, reviewedByUser := false,
                  taskStateVersion := 7, content := none, approvedAt := none })
      (fun _ => true) id
      (updatePlanSpecAttempt
        { status := "generated", version := 1, reviewedByUser := false,
          taskStateVersion := 7, content := none, approvedAt := none } id)
      rfl
  · exact updatePlanSpec_version_protocol.2.2.2.2
      { status := "generated", version := 1, reviewedByUser := false,
        taskStateVersion := 7, content := none, approvedAt := none }
      [id, id] (by simp)

/-! ## Supporting lemmas for the scheduler -/

/-- Lookup commutes with an id-preserving rewrite of the task list. -/
theorem taskMapGet_map (tasks : List ParsedTask) (f : ParsedTask → ParsedTask)
    (hid : ∀ t, (f t).id = t.id) (d : Str) :
    taskMapGet (tasks.map f) d = (taskMapGet tasks d).map f := by
  induction tasks with
  | nil => rfl
  | cons u rest ih =>
    simp only [taskMapGet, List.map_cons, List.find?_cons] at *
    by_cases h : u.id = d
    · simp [hid, h]
    · simp [hid, h, ih]

/-- The status rewrite preserves each task id. -/
theorem statusUpd_id (tid : Str) (s : TaskStatus) (t : ParsedTask) :
    (if t.id = tid then { t with status := s } else t).id = t.id := by
  split <;> rfl

/-- Task ids are unchanged by setTaskStatus. -/
theorem setTaskStatus_ids (tasks : List ParsedTask) (tid : Str) (s : TaskStatus) :
    (setTaskStatus tasks tid s).map (fun t => t.id) = tasks.map (fun t => t.id) := by
  induction tasks with
  | nil => rfl
  | cons u rest ih =>
    simp only [setTaskStatus, List.map_cons] at *
    rw [statusUpd_id, ih]

/-- Lookup commutes with setTaskStatus. -/
theorem taskMapGet_setTaskStatus (tasks : List ParsedTask) (tid : Str) (s : TaskStatus)
    (d : Str) :
    taskMapGet (setTaskStatus tasks tid s) d =
      (taskMapGet tasks d).map (fun t => if t.id = tid then { t with status := s } else t) :=
  taskMapGet_map tasks _ (statusUpd_id tid s) d

/-- A found task carries the looked-up id. -/
theorem taskMapGet_id (tasks : List ParsedTask) (tid : Str) (t : ParsedTask)
    (h : taskMapGet tasks tid = some t) : t.id = tid := by
  unfold taskMapGet at h
  have h2 := List.find?_some h
  simpa using h2

/-- A found task is a member of the list. -/
theorem taskMapGet_mem (tasks : List ParsedTask) (tid : Str) (t : ParsedTask)
    (h : taskMapGet tasks tid = some t) : t ∈ tasks := by
  unfold taskMapGet at h
  exact List.mem_of_find?_eq_some h

/-- Under distinct ids, a member task is found at its own id. -/
theorem taskMapGet_self (tasks : List ParsedTask)
    (hnd : (tasks.map (fun t => t.id)).Nodup) (t : ParsedTask) (ht : t ∈ tasks) :
    taskMapGet tasks t.id = some t := by
  induction tasks with
  | nil => exact absurd ht (List.not_mem_nil t)
  | cons u rest ih =>
    simp only [List.map_cons, List.nodup_cons] at hnd
    rcases List.mem_cons.mp ht with rfl | hmem
    · simp [taskMapGet, List.find?_cons]
    · by_cases h : u.id = t.id
      · exact absurd (h ▸ List.mem_map_of_mem (fun x => x.id) hmem) hnd.1
      · simp only [taskMapGet, List.find?_cons]
        have hd : decide (u.id = t.id) = false := by simp [h]
        rw [hd]
        exact ih hnd.2 hmem

/-- Rewriting an id that no task carries is the identity. -/
theorem setTaskStatus_absent (tasks : List ParsedTask) (tid : Str) (s : TaskStatus)
    (h : ∀ t ∈ tasks, t.id ≠ tid) : setTaskStatus tasks tid s = tasks := by
  induction tasks with
  | nil => rfl
  | cons u rest ih =>
    simp only [setTaskStatus, List.map_cons] at *
    rw [if_neg (h u (List.mem_cons_self u rest)), ih (fun t ht => h t (List.mem_cons_of_mem u ht))]

/-- Readiness of a task is preserved by any status rewrite of a task that
was not completed: all previously completed dependencies stay completed and
the record itself is untouched. -/
theorem isReady_setTaskStatus (tasks : List ParsedTask) (tid : Str) (s : TaskStatus)
    (w : ParsedTask) (hw : taskMapGet tasks tid = some w)
    (hwnc : w.status ≠ TaskStatus.completed)
    (u : ParsedTask) (hu : isReady tasks u = true) :
    isReady (setTaskStatus tasks tid s) u = true := by
  simp only [isReady, Bool.and_eq_true] at hu ⊢
  refine ⟨hu.1, ?_⟩
  have hdeps := hu.2
  simp only [depsAllCompleted, List.all_eq_true] at hdeps ⊢
  intro d hd
  have h1 := hdeps d hd
  cases hv : taskMapGet tasks d with
  | none => rw [hv] at h1; exact absurd h1 (by simp [Option.any])
  | some v =>
    rw [hv] at h1
    have hvc : v.status = TaskStatus.completed := by
      simpa [Option.any] using h1
    have hvid : v.id = d := taskMapGet_id tasks d v hv
    have hdt : v.id ≠ tid := by
      intro hdt
      rw [hvid] at hdt
      rw [hdt, hw] at hv
      cases hv
      exact hwnc hvc
    rw [taskMapGet_setTaskStatus, hv]
    simp [Option.any, if_neg hdt, hvc]

/-- Count change of one status rewrite at a found id, under distinct ids:
the measure moves by the predicate value of the old and the new status. -/
theorem count_setTaskStatus (tasks : List ParsedTask) (tid : Str) (s : TaskStatus)
    (w : ParsedTask) (hnd : (tasks.map (fun t => t.id)).Nodup)
    (hw : taskMapGet tasks tid = some w) :
    pendingInProgressCount (setTaskStatus tasks tid s) +
        (if w.status = TaskStatus.pending ∨ w.status = TaskStatus.in_progress then 1 else 0) =
      pendingInProgressCount tasks +
        (if s = TaskStatus.pending ∨ s = TaskStatus.in_progress then 1 else 0) := by
  induction tasks with
  | nil => exact absurd hw (by simp [taskMapGet])
  | cons u rest ih =>
    simp only [List.map_cons, List.nodup_cons] at hnd
    by_cases h : u.id = tid
    · have hwu : w = u := by
        have : taskMapGet (u :: rest) tid = some u := by
          simp [taskMapGet, List.find?_cons, h]
        rw [this] at hw
        cases hw
        rfl
      have hrest : setTaskStatus rest tid s = rest := by
        apply setTaskStatus_absent
        intro t ht hteq
        exact hnd.1 (by rw [← h] at hteq; exact hteq ▸ List.mem_map_of_mem (fun x => x.id) ht)
      simp only [setTaskStatus, List.map_cons] at *
      rw [if_pos h, hrest]
      subst hwu
      simp only [pendingInProgressCount, List.countP_cons]
      by_cases hsp : s = TaskStatus.pending ∨ s = TaskStatus.in_progress <;>
        by_cases hwp : w.status = TaskStatus.pending ∨ w.status = TaskStatus.in_progress <;>
          rcases hsp' : s <;> rcases hwp' : w.status <;> simp_all
    · have hfind : taskMapGet rest tid = some w := by
        simp only [taskMapGet, List.find?_cons] at hw
        have hd : decide (u.id = tid) = false := by simp [h]
        rw [hd] at hw
        exact hw
      simp only [setTaskStatus, List.map_cons]
      rw [if_neg h]
      have := ih hnd.2 hfind
      simp only [setTaskStatus] at this
      simp only [pendingInProgressCount, List.countP_cons] at *
      omega

/-- One admission step preserves the scheduler invariant and the
pending-or-in-progress count: the admitted task moves from pending to
in_progress. -/
theorem scheduleStep_inv (tasks : List ParsedTask) (tid : Str) (rest inFlight : List Str)
    (trace : List SchedEvent)
    (hinv : SchedInv { tasks := tasks, readyQueue := tid :: rest, inFlight := inFlight,
                       hadFailure := false, trace := trace }) :
    SchedInv { tasks := setTaskStatus tasks tid TaskStatus.in_progress,
               readyQueue := rest, inFlight := inFlight ++ [tid], hadFailure := false,
               trace := trace ++ [SchedEvent.started tid] } ∧
    pendingInProgressCount (setTaskStatus tasks tid TaskStatus.in_progress) =
      pendingInProgressCount tasks := by
  obtain ⟨hids, hqr, hqn, hifs, hifn⟩ := hinv
  obtain ⟨t, hlt, hrt⟩ := hqr tid (List.mem_cons_self tid rest)
  simp only [isReady, Bool.and_eq_true] at hrt
  have htp : t.status = TaskStatus.pending := of_decide_eq_true hrt.1
  have htid : t.id = tid := taskMapGet_id tasks tid t hlt
  have htnc : t.status ≠ TaskStatus.completed := by rw [htp]; intro h; cases h
  refine ⟨⟨?_, ?_, ?_, ?_, ?_⟩, ?_⟩
  · rw [setTaskStatus_ids]
    exact hids
  · intro tid2 h2
    have hne : tid2 ≠ tid := by
      intro he
      exact (List.nodup_cons.mp hqn).1 (he ▸ h2)
    obtain ⟨u, hlu, hru⟩ := hqr tid2 (List.mem_cons_of_mem tid h2)
    have huid : u.id = tid2 := taskMapGet_id tasks tid2 u hlu
    refine ⟨u, ?_, ?_⟩
    · rw [taskMapGet_setTaskStatus, hlu]
      simp [huid, hne]
    · exact isReady_setTaskStatus tasks tid TaskStatus.in_progress t hlt htnc u hru
  · exact (List.nodup_cons.mp hqn).2
  · intro tid2 h2
    rcases List.mem_append.mp h2 with hold | hnew
    · obtain ⟨v, hlv, hsv⟩ := hifs tid2 hold
      have hvid : v.id = tid2 := taskMapGet_id tasks tid2 v hlv
      have hvt : v.id ≠ tid := by
        intro he
        rw [hvid] at he
        subst he
        rw [hlv] at hlt
        cases hlt
        rw [htp] at hsv
        cases hsv
      refine ⟨v, ?_, hsv⟩
      rw [taskMapGet_setTaskStatus, hlv]
      simp [hvt]
    · have he : tid2 = tid := by simpa using hnew
      subst he
      refine ⟨{ t with status := TaskStatus.in_progress }, ?_, rfl⟩
      rw [taskMapGet_setTaskStatus, hlt]
      simp [htid]
  · refine List.Nodup.append hifn (List.nodup_singleton tid) ?_
    intro x hx hx2
    have he : x = tid := by simpa using hx2
    subst he
    obtain ⟨v, hlv, hsv⟩ := hifs x hx
    rw [hlv] at hlt
    cases hlt
    rw [htp] at hsv
    cases hsv
  · have hcount := count_setTaskStatus tasks tid TaskStatus.in_progress t hids hlt
    rw [htp] at hcount
    simpa using hcount

/-- The admission loop preserves the invariant, the measure, the hadFailure
flag, and only appends to the trace. -/
theorem admitGo_spec (cap : Nat) :
    ∀ (queue : List Str) (tasks : List ParsedTask) (inFlight : List Str)
      (hadFailure : Bool) (trace : List SchedEvent),
      SchedInv { tasks := tasks, readyQueue := queue, inFlight := inFlight,
                 hadFailure := hadFailure, trace := trace } →
      SchedInv (admitGo cap tasks inFlight hadFailure trace queue) ∧
      pendingInProgressCount (admitGo cap tasks inFlight hadFailure trace queue).tasks =
        pendingInProgressCount tasks ∧
      (∃ Δ, (admitGo cap tasks inFlight hadFailure trace queue).trace = trace ++ Δ) ∧
      (admitGo cap tasks inFlight hadFailure trace queue).hadFailure = hadFailure := by
  intro queue
  induction queue with
  | nil =>
    intro tasks inFlight hadFailure trace hinv
    exact ⟨hinv, rfl, ⟨[], by simp [admitGo]⟩, rfl⟩
  | cons tid rest ih =>
    intro tasks inFlight hadFailure trace hinv
    cases hadFailure with
    | true =>
      have hres : admitGo cap tasks inFlight true trace (tid :: rest) =
          { tasks := tasks, readyQueue := tid :: rest, inFlight := inFlight,
            hadFailure := true, trace := trace } := by
        simp [admitGo]
      rw [hres]
      exact ⟨hinv, rfl, ⟨[], by simp⟩, rfl⟩
    | false =>
      by_cases hc : inFlight.length < cap
      · have hres : admitGo cap tasks inFlight false trace (tid :: rest) =
            admitGo cap (setTaskStatus tasks tid TaskStatus.in_progress)
              (inFlight ++ [tid]) false (trace ++ [SchedEvent.started tid]) rest := by
          simp [admitGo, hc]
        rw [hres]
        obtain ⟨hinv', hcount⟩ := scheduleStep_inv tasks tid rest inFlight trace hinv
        obtain ⟨ih1, ih2, ⟨d, ihd⟩, ih4⟩ :=
          ih (setTaskStatus tasks tid TaskStatus.in_progress) (inFlight ++ [tid]) false
            (trace ++ [SchedEvent.started tid]) hinv'
        refine ⟨ih1, ?_, ⟨SchedEvent.started tid :: d, ?_⟩, ih4⟩
        · rw [ih2, hcount]
        · rw [ihd]
          simp
      · have hres : admitGo cap tasks inFlight false trace (tid :: rest) =
            { tasks := tasks, readyQueue := tid :: rest, inFlight := inFlight,
              hadFailure := false, trace := trace } := by
          simp [admitGo, hc]
        rw [hres]
        exact ⟨hinv, rfl, ⟨[], by simp⟩, rfl⟩

/-- The completion step preserves the invariant, strictly decreases the
measure when something was in flight, and only appends to the trace. -/
theorem completeOne_spec (st : SchedState) (pick : Nat) (oracle : Str → Bool)
    (hinv : SchedInv st) :
    SchedInv (completeOne st pick oracle) ∧
    (st.inFlight ≠ [] →
      pendingInProgressCount (completeOne st pick oracle).tasks <
        pendingInProgressCount st.tasks) ∧
    (∃ d, (completeOne st pick oracle).trace = st.trace ++ d) := by
  obtain ⟨hids, hqr, hqn, hifs, hifn⟩ := hinv
  by_cases hif : st.inFlight = []
  · have hres : completeOne st pick oracle = st := by
      simp [completeOne, hif]
    rw [hres]
    exact ⟨⟨hids, hqr, hqn, hifs, hifn⟩, fun h => absurd hif h, ⟨[], by simp⟩⟩
  · have hlen : 0 < st.inFlight.length := List.length_pos.mpr hif
    have hidx : pick % st.inFlight.length < st.inFlight.length := Nat.mod_lt _ hlen
    have htid_mem : st.inFlight.getD (pick % st.inFlight.length) [] ∈ st.inFlight := by
      rw [List.getD_eq_getElem?_getD]
      rw [List.getElem?_eq_getElem hidx]
      exact List.getElem_mem _
    obtain ⟨w, hlw, hsw⟩ := hifs _ htid_mem
    have hwnc : w.status ≠ TaskStatus.completed := by
      rw [hsw]
      intro h
      cases h
    obtain ⟨a, l, hal⟩ := List.exists_cons_of_ne_nil hif
    have hres : completeOne st pick oracle =
        (let tid := st.inFlight.getD (pick % st.inFlight.length) []
         let ok := oracle tid
         let st1 : SchedState :=
           { tasks := setTaskStatus st.tasks tid
               (if ok then TaskStatus.completed else TaskStatus.failed)
             readyQueue := st.readyQueue
             inFlight := st.inFlight.erase tid
             hadFailure := st.hadFailure || !ok
             trace := st.trace ++
               [if ok then SchedEvent.finishedOk tid else SchedEvent.finishedFail tid] }
         if st1.hadFailure then st1 else { st1 with readyQueue := refillQueue st1 }) := by
      conv_lhs => rw [completeOne]
      rw [hal]
    rw [hres]
    have hqr1 : ∀ tid2 ∈ st.readyQueue,
        ∃ t, taskMapGet (setTaskStatus st.tasks
            (st.inFlight.getD (pick % st.inFlight.length) [])
            (if oracle (st.inFlight.getD (pick % st.inFlight.length) []) then
              TaskStatus.completed else TaskStatus.failed)) tid2 = some t ∧
          isReady (setTaskStatus st.tasks
            (st.inFlight.getD (pick % st.inFlight.length) [])
            (if oracle (st.inFlight.getD (pick % st.inFlight.length) []) then
              TaskStatus.completed else TaskStatus.failed)) t = true := by
      intro tid2 h2
      obtain ⟨u, hlu, hru⟩ := hqr tid2 h2
      have huid : u.id = tid2 := taskMapGet_id _ _ _ hlu
      have hup : u.status = TaskStatus.pending := by
        simp only [isReady, Bool.and_eq_true] at hru
        exact of_decide_eq_true hru.1
      have hune : u.id ≠ st.inFlight.getD (pick % st.inFlight.length) [] := by
        intro he
        rw [← he, huid] at hlw
        rw [hlu] at hlw
        cases hlw
        rw [hup] at hsw
        cases hsw
      refine ⟨u, ?_, ?_⟩
      · rw [taskMapGet_setTaskStatus, hlu]
        simp only [Option.map_some']
        rw [if_neg hune]
      · exact isReady_setTaskStatus st.tasks _ _ w hlw hwnc u hru
    have hifs1 : ∀ tid2 ∈ st.inFlight.erase
        (st.inFlight.getD (pick % st.inFlight.length) []),
        ∃ t, taskMapGet (setTaskStatus st.tasks
            (st.inFlight.getD (pick % st.inFlight.length) [])
            (if oracle (st.inFlight.getD (pick % st.inFlight.length) []) then
              TaskStatus.completed else TaskStatus.failed)) tid2 = some t ∧
          t.status = TaskStatus.in_progress := by
      intro tid2 h2
      have hm := (List.Nodup.mem_erase_iff hifn).mp h2
      obtain ⟨v, hlv, hsv⟩ := hifs tid2 hm.2
      have hvid : v.id = tid2 := taskMapGet_id _ _ _ hlv
      refine ⟨v, ?_, hsv⟩
      rw [taskMapGet_setTaskStatus, hlv]
      have hvne : v.id ≠ st.inFlight.getD (pick % st.inFlight.length) [] := by
        rw [hvid]
        exact hm.1
      simp only [Option.map_some']
      rw [if_neg hvne]
    have hids1 : ((setTaskStatus st.tasks
        (st.inFlight.getD (pick % st.inFlight.length) [])
        (if oracle (st.inFlight.getD (pick % st.inFlight.length) []) then
          TaskStatus.completed else TaskStatus.failed)).map (fun t => t.id)).Nodup := by
      rw [setTaskStatus_ids]
      exact hids
    have hcount1 : pendingInProgressCount (setTaskStatus st.tasks
        (st.inFlight.getD (pick % st.inFlight.length) [])
        (if oracle (st.inFlight.getD (pick % st.inFlight.length) []) then
          TaskStatus.completed else TaskStatus.failed)) <
        pendingInProgressCount st.tasks := by
      have hcc := count_setTaskStatus st.tasks
        (st.inFlight.getD (pick % st.inFlight.length) [])
        (if oracle (st.inFlight.getD (pick % st.inFlight.length) []) then
          TaskStatus.completed else TaskStatus.failed) w hids hlw
      rw [hsw] at hcc
      cases hoc : oracle (st.inFlight.getD (pick % st.inFlight.length) []) with
      | false =>
        rw [hoc] at hcc
        simp at hcc ⊢
        omega
      | true =>
        rw [hoc] at hcc
        simp at hcc ⊢
        omega
    by_cases hfail : (st.hadFailure ||
        !(oracle (st.inFlight.getD (pick % st.inFlight.length) []))) = true
    · rw [if_pos hfail]
      exact ⟨⟨hids1, hqr1, hqn, hifs1, List.Nodup.erase _ hifn⟩, fun _ => hcount1,
        ⟨_, rfl⟩⟩
    · rw [if_neg hfail]
      refine ⟨⟨hids1, ?_, ?_, hifs1, List.Nodup.erase _ hifn⟩, fun _ => hcount1, ⟨_, rfl⟩⟩
      · intro tid2 h2
        simp only [refillQueue] at h2
        rcases List.mem_append.mp h2 with hold | hnew
        · exact hqr1 tid2 hold
        · obtain ⟨t, htf, rfl⟩ := List.mem_map.mp hnew
          have hmf := List.mem_filter.mp htf
          have hready := hmf.2
          simp only [Bool.and_eq_true] at hready
          exact ⟨t, taskMapGet_self _ hids1 t hmf.1, hready.1.1⟩
      · simp only [refillQueue]
        apply List.Nodup.append hqn
        · apply List.Nodup.sublist (List.Sublist.map _ (List.filter_sublist _)) hids1
        · intro x hx hx2
          obtain ⟨t, htf, rfl⟩ := List.mem_map.mp hx2
          have hmf := List.mem_filter.mp htf
          have hcond := hmf.2
          simp only [Bool.and_eq_true, Bool.not_eq_eq_eq_not, Bool.not_true] at hcond
          have hnm : t.id ∉ st.readyQueue := by simpa using hcond.1.2
          exact hnm hx

/-- Mapping an id-preserving rewrite over a task list keeps the id list. -/
theorem map_ids_of_preserve (tasks : List ParsedTask) (f : ParsedTask → ParsedTask)
    (hid : ∀ t, (f t).id = t.id) :
    (tasks.map f).map (fun t => t.id) = tasks.map (fun t => t.id) := by
  induction tasks with
  | nil => rfl
  | cons u rest ih => simp only [List.map_cons, hid, ih]

/-- Ids are unchanged by the up-front blocked sweep. -/
theorem markMissingDepsBlocked_ids (tasks : List ParsedTask) :
    (markMissingDepsBlocked tasks).map (fun t => t.id) = tasks.map (fun t => t.id) := by
  unfold markMissingDepsBlocked
  apply map_ids_of_preserve
  intro t
  split <;> rfl

/-- The initial scheduler state satisfies the invariant whenever the parsed
task ids are distinct. -/
theorem initSchedState_inv (tasks : List ParsedTask)
    (hnd : (tasks.map (fun t => t.id)).Nodup) : SchedInv (initSchedState tasks) := by
  have hnd0 : ((markMissingDepsBlocked tasks).map (fun t => t.id)).Nodup := by
    rw [markMissingDepsBlocked_ids]
    exact hnd
  refine ⟨hnd0, ?_, ?_, ?_, ?_⟩
  · intro tid2 hmem
    simp only [initSchedState] at hmem
    obtain ⟨t, htf, rfl⟩ := List.mem_map.mp hmem
    have hmf := List.mem_filter.mp htf
    exact ⟨t, taskMapGet_self _ hnd0 t hmf.1, hmf.2⟩
  · simp only [initSchedState]
    exact List.Nodup.sublist (List.Sublist.map _ (List.filter_sublist _)) hnd0
  · intro tid2 hmem
    simp only [initSchedState] at hmem
    exact absurd hmem (List.not_mem_nil tid2)
  · simp [initSchedState]

/-- With fuel exceeding the pending-or-in-progress count, the scheduler
loop never runs out: the scheduler terminates on every input. -/
theorem schedLoopGo_enough_fuel (cap : Nat) (oracle : Str → Bool) :
    ∀ (fuel : Nat) (picks : List Nat) (st : SchedState),
      SchedInv st → pendingInProgressCount st.tasks < fuel →
      schedLoopGo cap false oracle fuel picks st ≠ none := by
  intro fuel
  induction fuel with
  | zero =>
    intro picks st _ h
    exact absurd h (Nat.not_lt_zero _)
  | succ n ih =>
    intro picks st hinv hcount
    obtain ⟨ha1, ha2, _, _⟩ :=
      admitGo_spec cap st.readyQueue st.tasks st.inFlight st.hadFailure st.trace hinv
    have hres : schedLoopGo cap false oracle (n + 1) picks st =
        (if (admitLoop cap st).inFlight.isEmpty then some (Except.ok (admitLoop cap st))
         else schedLoopGo cap false oracle n picks.tail
           (completeOne (admitLoop cap st) (picks.headD 0) oracle)) := by
      simp [schedLoopGo]
    rw [hres]
    by_cases he : (admitLoop cap st).inFlight.isEmpty
    · simp [he]
    · simp only [he, Bool.false_eq_true, if_false]
      have hinvAdmit : SchedInv (admitLoop cap st) := ha1
      obtain ⟨hc1, hc2, _⟩ :=
        completeOne_spec (admitLoop cap st) (picks.headD 0) oracle hinvAdmit
      apply ih
      · exact hc1
      · have hne : (admitLoop cap st).inFlight ≠ [] := by
          intro hnil
          rw [hnil] at he
          exact he rfl
        have hlt := hc2 hne
        have heq : pendingInProgressCount (admitLoop cap st).tasks =
            pendingInProgressCount st.tasks := ha2
        omega

/-- The nondeterministic finishing pick only matters modulo the in-flight
count. -/
theorem completeOne_congr (st : SchedState) (p q : Nat) (oracle : Str → Bool)
    (h : p % st.inFlight.length = q % st.inFlight.length) :
    completeOne st p oracle = completeOne st q oracle := by
  unfold completeOne
  cases hif : st.inFlight with
  | nil => rfl
  | cons a l =>
    rw [hif] at h
    rw [h]

/-! ## Claim theorems for the dependency-aware scheduler -/

/-- C2: in every invariant state the next task the admission loop starts is
pending with all dependencies completed, the invariant holds initially for
distinct task ids and is preserved by both scheduler steps; and on the
scenario A, B(deps A), C(deps A) with cap 2, for every finishing order the
run starts B and C only after A completed, starts them back to back (so
they are in flight concurrently), and completes all three tasks. -/
theorem scheduler_dependency_gating :
    (∀ (st : SchedState) (tid : Str) (rest : List Str),
        SchedInv st → st.readyQueue = tid :: rest →
        ∃ t, taskMapGet st.tasks tid = some t ∧ t.status = TaskStatus.pending ∧
          depsAllCompleted st.tasks t = true) ∧
    (∀ (cap : Nat) (st : SchedState), SchedInv st → SchedInv (admitLoop cap st)) ∧
    (∀ (st : SchedState) (pick : Nat) (oracle : Str → Bool),
        SchedInv st → SchedInv (completeOne st pick oracle)) ∧
    (∀ tasks : List ParsedTask, (tasks.map (fun t => t.id)).Nodup →
        SchedInv (initSchedState tasks)) ∧
    (∀ picks : List Nat, ∃ rest : List SchedEvent,
        executeTasksWithDependencies (resolveTaskConcurrency (some 2)) false allSucceed
            picks 4 [taskA, taskB, taskC] =
          SchedResult.ok
            [{ taskA with status := TaskStatus.completed },
             { taskB with status := TaskStatus.completed },
             { taskC with status := TaskStatus.completed }]
            ([SchedEvent.started ['A'], SchedEvent.finishedOk ['A'],
              SchedEvent.started ['B'], SchedEvent.started ['C']] ++ rest)) := by
  refine ⟨?_, ?_, ?_, ?_, ?_⟩
  · intro st tid rest hinv hq
    obtain ⟨_, hqr, _, _, _⟩ := hinv
    obtain ⟨t, hlt, hrt⟩ := hqr tid (by rw [hq]; exact List.mem_cons_self tid rest)
    simp only [isReady, Bool.and_eq_true] at hrt
    exact ⟨t, hlt, of_decide_eq_true hrt.1, hrt.2⟩
  · intro cap st hinv
    exact (admitGo_spec cap st.readyQueue st.tasks st.inFlight st.hadFailure st.trace hinv).1
  · intro st pick oracle hinv
    exact (completeOne_spec st pick oracle hinv).1
  · intro tasks hnd
    exact initSchedState_inv tasks hnd
  · intro picks
    have hc : resolveTaskConcurrency (some 2) = 2 := rfl
    rw [hc]
    rcases Nat.mod_two_eq_zero_or_one (picks.tail.headD 0) with h | h
    · refine ⟨[SchedEvent.finishedOk ['B'], SchedEvent.finishedOk ['C']], ?_⟩
      calc executeTasksWithDependencies 2 false allSucceed picks 4 [taskA, taskB, taskC]
          = (match schedLoopGo 2 false allSucceed 4 picks
              (initSchedState [taskA, taskB, taskC]) with
             | none => SchedResult.outOfFuel
             | some (Except.error msg) => SchedResult.error msg [] []
             | some (Except.ok stEnd) => finalizeScheduler stEnd) := rfl
        _ = _ := by
            have e1 : schedLoopGo 2 false allSucceed 4 picks
                (initSchedState [taskA, taskB, taskC]) =
                schedLoopGo 2 false allSucceed 3 picks.tail
                  (completeOne (admitLoop 2 (initSchedState [taskA, taskB, taskC]))
                    (picks.headD 0) allSucceed) := rfl
            rw [e1]
            rw [completeOne_congr (admitLoop 2 (initSchedState [taskA, taskB, taskC]))
              (picks.headD 0) 0 allSucceed
              (by rw [show (admitLoop 2 (initSchedState
                    [taskA, taskB, taskC])).inFlight.length = 1 from rfl]
                  omega)]
            have e2 : schedLoopGo 2 false allSucceed 3 picks.tail
                (completeOne (admitLoop 2 (initSchedState [taskA, taskB, taskC]))
                  0 allSucceed) =
                schedLoopGo 2 false allSucceed 2 picks.tail.tail
                  (completeOne
                    (admitLoop 2 (completeOne
                      (admitLoop 2 (initSchedState [taskA, taskB, taskC])) 0 allSucceed))
                    (picks.tail.headD 0) allSucceed) := rfl
            rw [e2]
            rw [completeOne_congr
              (admitLoop 2 (completeOne
                (admitLoop 2 (initSchedState [taskA, taskB, taskC])) 0 allSucceed))
              (picks.tail.headD 0) 0 allSucceed
              (by rw [show (admitLoop 2 (completeOne (admitLoop 2
                    (initSchedState [taskA, taskB, taskC])) 0 allSucceed)).inFlight.length
                  = 2 from rfl]
                  rw [h])]
            have e3 : schedLoopGo 2 false allSucceed 2 picks.tail.tail
                (completeOne
                  (admitLoop 2 (completeOne
                    (admitLoop 2 (initSchedState [taskA, taskB, taskC])) 0 allSucceed))
                  0 allSucceed) =
                schedLoopGo 2 false allSucceed 1 picks.tail.tail.tail
                  (completeOne
                    (admitLoop 2 (completeOne
                      (admitLoop 2 (completeOne
                        (admitLoop 2 (initSchedState [taskA, taskB, taskC]))
                        0 allSucceed))
                      0 allSucceed))
                    (picks.tail.tail.headD 0) allSucceed) := rfl
            rw [e3]
            rw [completeOne_congr
              (admitLoop 2 (completeOne
                (admitLoop 2 (completeOne
                  (admitLoop 2 (initSchedState [taskA, taskB, taskC])) 0 allSucceed))
                0 allSucceed))
              (picks.tail.tail.headD 0) 0 allSucceed
              (by rw [show (admitLoop 2 (completeOne
                    (admitLoop 2 (completeOne (admitLoop 2
                      (initSchedState [taskA, taskB, taskC])) 0 allSucceed))
                    0 allSucceed)).inFlight.length = 1 from rfl]
                  omega)]
            rfl
    · refine ⟨[SchedEvent.finishedOk ['C'], SchedEvent.finishedOk ['B']], ?_⟩
      calc executeTasksWithDependencies 2 false allSucceed picks 4 [taskA, taskB, taskC]
          = (match schedLoopGo 2 false allSucceed 4 picks
              (initSchedState [taskA, taskB, taskC]) with
             | none => SchedResult.outOfFuel
             | some (Except.error msg) => SchedResult.error msg [] []
             | some (Except.ok stEnd) => finalizeScheduler stEnd) := rfl
        _ = _ := by
            have e1 : schedLoopGo 2 false allSucceed 4 picks
                (initSchedState [taskA, taskB, taskC]) =
                schedLoopGo 2 false allSucceed 3 picks.tail
                  (completeOne (admitLoop 2 (initSchedState [taskA, taskB, taskC]))
                    (picks.headD 0) allSucceed) := rfl
            rw [e1]
            rw [completeOne_congr (admitLoop 2 (initSchedState [taskA, taskB, taskC]))
              (picks.headD 0) 0 allSucceed
              (by rw [show (admitLoop 2 (initSchedState
                    [taskA, taskB, taskC])).inFlight.length = 1 from rfl]
                  omega)]
            have e2 : schedLoopGo 2 false allSucceed 3 picks.tail
                (completeOne (admitLoop 2 (initSchedState [taskA, taskB, taskC]))
                  0 allSucceed) =
                schedLoopGo 2 false allSucceed 2 picks.tail.tail
                  (completeOne
                    (admitLoop 2 (completeOne
                      (admitLoop 2 (initSchedState [taskA, taskB, taskC])) 0 allSucceed))
                    (picks.tail.headD 0) allSucceed) := rfl
            rw [e2]
            rw [completeOne_congr
              (admitLoop 2 (completeOne
                (admitLoop 2 (initSchedState [taskA, taskB, taskC])) 0 allSucceed))
              (picks.tail.headD 0) 1 allSucceed
              (by rw [show (admitLoop 2 (completeOne (admitLoop 2
                    (initSchedState [taskA, taskB, taskC])) 0 allSucceed)).inFlight.length
                  = 2 from rfl]
                  rw [h])]
            have e3 : schedLoopGo 2 false allSucceed 2 picks.tail.tail
                (completeOne
                  (admitLoop 2 (completeOne
                    (admitLoop 2 (initSchedState [taskA, taskB, taskC])) 0 allSucceed))
                  1 allSucceed) =
                schedLoopGo 2 false allSucceed 1 picks.tail.tail.tail
                  (completeOne
                    (admitLoop 2 (completeOne
                      (admitLoop 2 (completeOne
                        (admitLoop 2 (initSchedState [taskA, taskB, taskC]))
                        0 allSucceed))
                      1 allSucceed))
                    (picks.tail.tail.headD 0) allSucceed) := rfl
            rw [e3]
            rw [completeOne_congr
              (admitLoop 2 (completeOne
                (admitLoop 2 (completeOne
                  (admitLoop 2 (initSchedState [taskA, taskB, taskC])) 0 allSucceed))
                1 allSucceed))
              (picks.tail.tail.headD 0) 0 allSucceed
              (by rw [show (admitLoop 2 (completeOne
                    (admitLoop 2 (completeOne (admitLoop 2
                      (initSchedState [taskA, taskB, taskC])) 0 allSucceed))
                    1 allSucceed)).inFlight.length = 1 from rfl]
                  omega)]
            rfl

/-- Witness for C2 at concrete inputs: the head-of-queue readiness clause
applied to the initial state of the scenario, and the scenario itself at a
specific finishing order. -/
theorem scheduler_dependency_gating_witness :
    (∃ t, taskMapGet (initSchedState [taskA, taskB, taskC]).tasks ['A'] = some t ∧
      t.status = TaskStatus.pending ∧
      depsAllCompleted (initSchedState [taskA, taskB, taskC]).tasks t = true) ∧
    (∃ rest : List SchedEvent,
      executeTasksWithDependencies (resolveTaskConcurrency (some 2)) false allSucceed
          [0, 1, 0] 4 [taskA, taskB, taskC] =
        SchedResult.ok
          [{ taskA with status := TaskStatus.completed },
           { taskB with status := TaskStatus.completed },
           { taskC with status := TaskStatus.completed }]
          ([SchedEvent.started ['A'], SchedEvent.finishedOk ['A'],
            SchedEvent.started ['B'], SchedEvent.started ['C']] ++ rest)) := by
  constructor
  · exact scheduler_dependency_gating.1 (initSchedState [taskA, taskB, taskC]) ['A']
      [] (scheduler_dependency_gating.2.2.2.1 [taskA, taskB, taskC] (by decide)) rfl
  · exact scheduler_dependency_gating.2.2.2.2 [0, 1, 0]

/-- C3: the scheduler always terminates (with fuel beyond the task count
the loop never runs out); whenever the loop exits with no failure, zero
in-flight and zero ready tasks but pending tasks remaining, finalization
marks every remaining pending task blocked and raises the cycle-detected
error; and on the concrete cycle A(deps B), B(deps A) the run ends with the
cycle-detected error and both tasks blocked instead of hanging. -/
theorem scheduler_cycle_detection :
    (∀ (cap : Nat) (oracle : Str → Bool) (picks : List Nat) (fuel : Nat)
        (tasks : List ParsedTask),
        (tasks.map (fun t => t.id)).Nodup → tasks.length < fuel →
        executeTasksWithDependencies cap false oracle picks fuel tasks ≠
          SchedResult.outOfFuel) ∧
    (∀ st : SchedState, st.hadFailure = false →
        0 < (st.tasks.filter (fun t => decide (t.status = TaskStatus.pending))).length →
        finalizeScheduler st =
          SchedResult.error "Task dependency cycle detected - pending tasks are blocked."
            (markPendingBlocked st.tasks) st.trace ∧
          ∀ t ∈ markPendingBlocked st.tasks, t.status ≠ TaskStatus.pending) ∧
    (∀ (picks : List Nat) (oracle : Str → Bool),
        executeTasksWithDependencies (resolveTaskConcurrency (some 2)) false oracle
            picks 3 [cycleA, cycleB] =
          SchedResult.error "Task dependency cycle detected - pending tasks are blocked."
            [{ cycleA with status := TaskStatus.blocked },
             { cycleB with status := TaskStatus.blocked }] []) := by
  refine ⟨?_, ?_, ?_⟩
  · intro cap oracle picks fuel tasks hnd hfuel
    have hinv : SchedInv (initSchedState tasks) := initSchedState_inv tasks hnd
    have hcount : pendingInProgressCount (initSchedState tasks).tasks < fuel := by
      have h1 : pendingInProgressCount (initSchedState tasks).tasks ≤
          (initSchedState tasks).tasks.length := List.countP_le_length _
      have h2 : (initSchedState tasks).tasks.length = tasks.length := by
        have := markMissingDepsBlocked_ids tasks
        have hlen := congrArg List.length this
        simpa using hlen
      omega
    have hne := schedLoopGo_enough_fuel cap oracle fuel picks
      (initSchedState tasks) hinv hcount
    unfold executeTasksWithDependencies
    cases hres : schedLoopGo cap false oracle fuel picks (initSchedState tasks) with
    | none => exact absurd hres hne
    | some e =>
      cases e with
      | error msg => simp
      | ok stEnd =>
        simp only []
        unfold finalizeScheduler
        split
        · simp
        · split
          · simp
          · simp
  · intro st h1 h2
    constructor
    · rw [finalizeScheduler, if_neg (by rw [h1]; simp), if_pos h2]
    · intro t ht
      obtain ⟨u, _, rfl⟩ := List.mem_map.mp ht
      by_cases h : u.status = TaskStatus.pending
      · rw [if_pos h]
        intro hcon
        cases hcon
      · rw [if_neg h]
        exact h
  · intro picks oracle
    rfl

/-- Witness for C3 at concrete inputs: the termination clause on the cycle
example, and the finalization clause at a state with one pending task. -/
theorem scheduler_cycle_detection_witness :
    executeTasksWithDependencies 2 false allSucceed [] 3 [cycleA, cycleB] ≠
      SchedResult.outOfFuel ∧
    (finalizeScheduler
        { tasks := [taskA], readyQueue := [], inFlight := [], hadFailure := false,
          trace := [] } =
      SchedResult.error "Task dependency cycle detected - pending tasks are blocked."
        (markPendingBlocked [taskA]) [] ∧
      ∀ t ∈ markPendingBlocked [taskA], t.status ≠ TaskStatus.pending) := by
  constructor
  · exact scheduler_cycle_detection.1 2 allSucceed [] 3 [cycleA, cycleB]
      (by decide) (by decide)
  · exact scheduler_cycle_detection.2.1
      { tasks := [taskA], readyQueue := [], inFlight := [], hadFailure := false,
        trace := [] } rfl (by decide)

/-! ## Claim theorems for plan-approval resolution with recovery -/

/-- Reading a feature back after updateFeatureIn yields the update applied
to the previously stored record. -/
theorem loadFeature_updateFeatureIn (st : OrchSt) (pp : String) (fid : FeatureId)
    (f : FeatureRec → FeatureRec) :
    loadFeature (updateFeatureIn st pp fid f) pp fid =
      (loadFeature st pp fid).map f := by
  simp only [loadFeature, updateFeatureIn]
  induction st.features with
  | nil => rfl
  | cons e rest ih =>
    by_cases h : keyMatches pp fid e = true
    · have h2 : keyMatches pp fid (e.1, f e.2) = true := h
      simp [List.find?_cons, h, h2]
    · have h2 : keyMatches pp fid (e.1, f e.2) = false := by
        simpa using h
      simp only [List.map_cons, if_neg h]
      rw [List.find?_cons_of_neg _ (by simpa using h), List.find?_cons_of_neg _ (by simpa using h)]
      exact ih

/-- C10: resolving an approval with no registered waiter recovers when the
caller supplies a project path and the persisted planSpec status is
generated: approve persists the planSpec as approved and restarts execution
with a continuation prompt, reject persists it as rejected and reverts the
feature to backlog, and both return success; in every other no-waiter case
the call fails with a no-pending-approval error and leaves the state
unchanged. -/
theorem resolvePlanApproval_recovery :
    (∀ (st : OrchSt) (fid : FeatureId) (editedPlan feedback : Option String)
        (pp : String) (now : Nat) (feat : FeatureRec) (ps : PlanSpecRec),
        mapGet st.pendingApprovals fid = none →
        loadFeature st pp fid = some feat →
        feat.planSpec = some ps →
        ps.status = "generated" →
        (resolvePlanApproval st fid true editedPlan feedback (some pp) now).1.success = true ∧
        (resolvePlanApproval st fid true editedPlan feedback (some pp) now).1.restarted = true ∧
        loadFeature (resolvePlanApproval st fid true editedPlan feedback (some pp) now).2
            pp fid =
          some { feat with planSpec := some (recoveryApproveUpdate now editedPlan ps) } ∧
        (recoveryApproveUpdate now editedPlan ps).status = "approved") ∧
    (∀ (st : OrchSt) (fid : FeatureId) (editedPlan feedback : Option String)
        (pp : String) (now : Nat) (feat : FeatureRec) (ps : PlanSpecRec),
        mapGet st.pendingApprovals fid = none →
        loadFeature st pp fid = some feat →
        feat.planSpec = some ps →
        ps.status = "generated" →
        (resolvePlanApproval st fid false editedPlan feedback (some pp) now).1.success = true ∧
        (resolvePlanApproval st fid false editedPlan feedback (some pp) now).1.restarted = false ∧
        loadFeature (resolvePlanApproval st fid false editedPlan feedback (some pp) now).2
            pp fid =
          some (updateFeatureStatusApply now "backlog"
            { feat with planSpec := some (recoveryRejectUpdate ps) }) ∧
        (recoveryRejectUpdate ps).status = "rejected" ∧
        (updateFeatureStatusApply now "backlog"
            { feat with planSpec := some (recoveryRejectUpdate ps) }).status = "backlog") ∧
    (∀ (st : OrchSt) (fid : FeatureId) (approved : Bool)
        (editedPlan feedback : Option String) (now : Nat),
        mapGet st.pendingApprovals fid = none →
        resolvePlanApproval st fid approved editedPlan feedback none now =
          noPendingApprovalResult fid st) ∧
    (∀ (st : OrchSt) (fid : FeatureId) (approved : Bool)
        (editedPlan feedback : Option String) (pp : String) (now : Nat),
        mapGet st.pendingApprovals fid = none →
        loadFeature st pp fid = none →
        resolvePlanApproval st fid approved editedPlan feedback (some pp) now =
          noPendingApprovalResult fid st) ∧
    (∀ (st : OrchSt) (fid : FeatureId) (approved : Bool)
        (editedPlan feedback : Option String) (pp : String) (now : Nat)
        (feat : FeatureRec),
        mapGet st.pendingApprovals fid = none →
        loadFeature st pp fid = some feat →
        feat.planSpec = none →
        resolvePlanApproval st fid approved editedPlan feedback (some pp) now =
          noPendingApprovalResult fid st) ∧
    (∀ (st : OrchSt) (fid : FeatureId) (approved : Bool)
        (editedPlan feedback : Option String) (pp : String) (now : Nat)
        (feat : FeatureRec) (ps : PlanSpecRec),
        mapGet st.pendingApprovals fid = none →
        loadFeature st pp fid = some feat →
        feat.planSpec = some ps →
        ps.status ≠ "generated" →
        resolvePlanApproval st fid approved editedPlan feedback (some pp) now =
          noPendingApprovalResult fid st) := by
  refine ⟨?_, ?_, ?_, ?_, ?_, ?_⟩
  · intro st fid editedPlan feedback pp now feat ps hpend hload hps hstat
    simp only [resolvePlanApproval, hpend, hload, hps, hstat, if_pos, if_true]
    refine ⟨trivial, trivial, ?_, ?_⟩
    · simp only [updateFeaturePlanSpecIn]
      rw [loadFeature_updateFeatureIn, hload]
      simp [updateFeaturePlanSpecApply, hps]
    · rfl
  · intro st fid editedPlan feedback pp now feat ps hpend hload hps hstat
    simp only [resolvePlanApproval, hpend, hload, hps, hstat, if_pos, Bool.false_eq_true,
      if_false]
    refine ⟨trivial, trivial, ?_, rfl, rfl⟩
    simp only [updateFeatureStatusIn, updateFeaturePlanSpecIn]
    rw [loadFeature_updateFeatureIn, loadFeature_updateFeatureIn, hload]
    simp [updateFeaturePlanSpecApply, hps]
  · intro st fid approved editedPlan feedback now hpend
    simp [resolvePlanApproval, hpend]
  · intro st fid approved editedPlan feedback pp now hpend hload
    simp [resolvePlanApproval, hpend, hload]
  · intro st fid approved editedPlan feedback pp now feat hpend hload hps
    simp [resolvePlanApproval, hpend, hload, hps]
  · intro st fid approved editedPlan feedback pp now feat ps hpend hload hps hstat
    simp [resolvePlanApproval, hpend, hload, hps, hstat]

/-- Witness for C10 at a concrete state: one feature record with a
generated planSpec and no pending waiter. -/
theorem resolvePlanApproval_recovery_witness :
    (resolvePlanApproval
        { pendingApprovals := [],
          features := [(("proj", "feat-1"),
            { status := "in_progress",
              planSpec := some { status := "generated", version := 1,
                                 reviewedByUser := false, taskStateVersion := 0,
                                 content := some "plan", approvedAt := none },
              justFinishedAt := none })] }
        "feat-1" true none none (some "proj") 5).1.success = true ∧
    resolvePlanApproval
        { pendingApprovals := [],
          features := [(("proj", "feat-1"),
            { status := "in_progress",
              planSpec := some { status := "generated", version := 1,
                                 reviewedByUser := false, taskStateVersion := 0,
                                 content := some "plan", approvedAt := none },
              justFinishedAt := none })] }
        "feat-2" true none none (some "proj") 5 =
      noPendingApprovalResult "feat-2"
        { pendingApprovals := [],
          features := [(("proj", "feat-1"),
            { status := "in_progress",
              planSpec := some { status := "generated", version := 1,
                                 reviewedByUser := false, taskStateVersion := 0,
                                 content := some "plan", approvedAt := none },
              justFinishedAt := none })] } := by
  constructor
  · exact (resolvePlanApproval_recovery.1
      { pendingApprovals := [],
        features := [(("proj", "feat-1"),
          { status := "in_progress",
            planSpec := some { status := "generated", version := 1,
                               reviewedByUser := false, taskStateVersion := 0,
                               content := some "plan", approvedAt := none },
            justFinishedAt := none })] }
      "feat-1" none none "proj" 5
      { status := "in_progress",
        planSpec := some { status := "generated", version := 1,
                           reviewedByUser := false, taskStateVersion := 0,
                           content := some "plan", approvedAt := none },
        justFinishedAt := none }
      { status := "generated", version := 1, reviewedByUser := false,
        taskStateVersion := 0, content := some "plan", approvedAt := none }
      rfl (by decide) rfl rfl).1
  · exact resolvePlanApproval_recovery.2.2.2.1
      { pendingApprovals := [],
        features := [(("proj", "feat-1"),
          { status := "in_progress",
            planSpec := some { status := "generated", version := 1,
                               reviewedByUser := false, taskStateVersion := 0,
                               content := some "plan", approvedAt := none },
            justFinishedAt := none })] }
      "feat-2" true none none "proj" 5 rfl (by decide)

/-! ## Supporting lemmas for the plan parser -/

/-- dropWhile passes over a prefix of satisfying characters. -/
theorem dropWhile_append_all (p : Char → Bool) (pre rest : Str)
    (h : ∀ c ∈ pre, p c = true) :
    List.dropWhile p (pre ++ rest) = List.dropWhile p rest := by
  induction pre with
  | nil => rfl
  | cons c cs ih =>
    have hc : p c = true := h c (List.mem_cons_self c cs)
    simp only [List.cons_append, List.dropWhile_cons, hc, if_true]
    exact ih (fun d hd => h d (List.mem_cons_of_mem c hd))

/-- dropWhile stops at a non-satisfying head. -/
theorem dropWhile_head_false (p : Char → Bool) (s : Str)
    (hne : s ≠ []) (hh : p (s.headD ' ') = false) :
    List.dropWhile p s = s := by
  cases s with
  | nil => exact absurd rfl hne
  | cons c cs =>
    simp only [List.headD_cons] at hh
    simp [List.dropWhile_cons, hh]

/-- A nonempty tail absorbs the head in getLastD, for any defaults. -/
theorem getLastD_cons_ne (c : Char) (s : Str) (d e : Char) (hne : s ≠ []) :
    (c :: s).getLastD d = s.getLastD e := by
  cases s with
  | nil => exact absurd rfl hne
  | cons x xs => rw [List.getLastD_cons d c (x :: xs), List.getLastD_cons c x xs,
      List.getLastD_cons e x xs]

/-- The last character of an appended list with nonempty right part. -/
theorem getLastD_append_ne (xs ys : Str) (d : Char) (hne : ys ≠ []) :
    (xs ++ ys).getLastD d = ys.getLastD d := by
  induction xs with
  | nil => rfl
  | cons c cs ih =>
    have h1 : cs ++ ys ≠ [] := by
      intro h
      exact hne (List.append_eq_nil.mp h).2
    rw [List.cons_append, getLastD_cons_ne c (cs ++ ys) d d h1, ih]

/-- The head of the reverse is the last character. -/
theorem headD_reverse (s : Str) (d : Char) : s.reverse.headD d = s.getLastD d := by
  induction s with
  | nil => rfl
  | cons c cs ih =>
    by_cases hcs : cs = []
    · subst hcs
      rfl
    · rw [List.reverse_cons]
      have hne : cs.reverse ≠ [] := by simpa using hcs
      have h1 : (cs.reverse ++ [c]).headD d = cs.reverse.headD d := by
        cases hr : cs.reverse with
        | nil => exact absurd hr hne
        | cons x xs => simp
      rw [h1, ih]
      exact (getLastD_cons_ne c cs d d hcs).symm

/-- trim is the identity on a string already trimmed at both ends. -/
theorem trimJS_eq_self (s : Str) (hne : s ≠ [])
    (hh : isSpaceJS (s.headD ' ') = false) (hl : isSpaceJS (s.getLastD ' ') = false) :
    trimJS s = s := by
  unfold trimJS trimL trimR
  rw [dropWhile_head_false isSpaceJS s hne hh]
  rw [dropWhile_head_false isSpaceJS s.reverse (by simpa using hne)
    (by rw [headD_reverse]; exact hl)]
  exact List.reverse_reverse s

/-- trim swallows a leading space. -/
theorem trimJS_cons_space (s : Str) : trimJS (' ' :: s) = trimJS s := by
  unfold trimJS trimL
  rw [List.dropWhile_cons]
  simp [isSpaceJS]

/-- The head of an appended list with nonempty left part. -/
theorem headD_append_ne (xs ys : Str) (d : Char) (hne : xs ≠ []) :
    (xs ++ ys).headD d = xs.headD d := by
  cases xs with
  | nil => exact absurd rfl hne
  | cons c cs => rfl

/-- The right trim swallows a trailing space. -/
theorem trimR_append_space (s : Str) : trimR (s ++ [' ']) = trimR s := by
  unfold trimR
  rw [List.reverse_append]
  have h1 : ([' '] : Str).reverse = [' '] := rfl
  rw [h1]
  have h2 : List.dropWhile isSpaceJS ([' '] ++ s.reverse) =
      List.dropWhile isSpaceJS s.reverse :=
    dropWhile_append_all isSpaceJS [' '] s.reverse
      (by intro c hc; simp at hc; subst hc; rfl)
  simp only [List.singleton_append] at h2 ⊢
  rw [h2]

/-- trim removes a trailing space after a string trimmed at both ends. -/
theorem trimJS_wf_append_space (s : Str) (hne : s ≠ [])
    (hh : isSpaceJS (s.headD ' ') = false) (hl : isSpaceJS (s.getLastD ' ') = false) :
    trimJS (s ++ [' ']) = s := by
  unfold trimJS
  have h1 : trimL (s ++ [' ']) = s ++ [' '] := by
    unfold trimL
    exact dropWhile_head_false isSpaceJS (s ++ [' ']) (by simp)
      (by rw [headD_append_ne s [' '] ' ' hne]; exact hh)
  rw [h1, trimR_append_space]
  unfold trimR
  rw [dropWhile_head_false isSpaceJS s.reverse (by simpa using hne)
    (by rw [headD_reverse]; exact hl)]
  exact List.reverse_reverse s

/-- Splitting a separator-free string returns it whole. -/
theorem splitChar_sepFree (sep : Char) (s : Str) (h : ∀ c ∈ s, ¬ c = sep) :
    splitChar sep s = [s] := by
  induction s with
  | nil => rfl
  | cons c cs ih =>
    have hc : ¬ c = sep := h c (List.mem_cons_self c cs)
    simp only [splitChar, if_neg hc]
    rw [ih (fun d hd => h d (List.mem_cons_of_mem c hd))]

/-- Splitting peels off the piece before the first separator. -/
theorem splitChar_append (sep : Char) (xs ys : Str) (h : ∀ c ∈ xs, ¬ c = sep) :
    splitChar sep (xs ++ sep :: ys) = xs :: splitChar sep ys := by
  induction xs with
  | nil => simp [splitChar]
  | cons c cs ih =>
    have hc : ¬ c = sep := h c (List.mem_cons_self c cs)
    have hrec := ih (fun d hd => h d (List.mem_cons_of_mem c hd))
    simp only [List.cons_append, splitChar, if_neg hc, List.append_eq]
    rw [hrec]

/-- Predicate split of a separator-free string returns it whole. -/
theorem splitPred_sepFree (p : Char → Bool) (s : Str) (h : ∀ c ∈ s, p c = false) :
    splitPred p s = [s] := by
  induction s with
  | nil => rfl
  | cons c cs ih =>
    have hc : p c = false := h c (List.mem_cons_self c cs)
    simp only [splitPred, hc]
    rw [if_neg (by simp [hc]), ih (fun d hd => h d (List.mem_cons_of_mem c hd))]

/-- Predicate split peels off the piece before the first separator. -/
theorem splitPred_append (p : Char → Bool) (xs ys : Str) (c0 : Char)
    (h : ∀ c ∈ xs, p c = false) (hc0 : p c0 = true) :
    splitPred p (xs ++ c0 :: ys) = xs :: splitPred p ys := by
  induction xs with
  | nil => simp [splitPred, hc0]
  | cons c cs ih =>
    have hc : p c = false := h c (List.mem_cons_self c cs)
    have hrec := ih (fun d hd => h d (List.mem_cons_of_mem c hd))
    simp only [List.cons_append, splitPred, hc, List.append_eq]
    rw [if_neg (by simp [hc]), hrec]

/-- A pattern is a prefix of itself extended. -/
theorem isPrefixOfCh_self (p rest : Str) : isPrefixOfCh p (p ++ rest) = true := by
  induction p with
  | nil => rfl
  | cons c cs ih => simp [isPrefixOfCh, ih]

/-- The leftmost occurrence of a nonempty pattern standing at the front. -/
theorem splitOnFirst_at_zero (p rest : Str) (hne : p ≠ []) :
    splitOnFirst p (p ++ rest) = some ([], rest) := by
  cases hp : p with
  | nil => exact absurd hp hne
  | cons c cs =>
    subst hp
    rw [List.cons_append]
    simp only [splitOnFirst, List.append_eq]
    rw [if_pos (by rw [← List.cons_append]; exact isPrefixOfCh_self (c :: cs) rest)]
    rw [← List.cons_append, List.drop_left (c :: cs) rest]

/-- The first triple backtick after a backtick-free prefix is the appended
fence. -/
theorem splitOnFirst_fence (xs rest : Str) (h : ∀ c ∈ xs, ¬ c = '`') :
    splitOnFirst ['`', '`', '`'] (xs ++ '`' :: '`' :: '`' :: rest) = some (xs, rest) := by
  induction xs with
  | nil =>
    have := splitOnFirst_at_zero ['`', '`', '`'] rest (by simp)
    simpa using this
  | cons c cs ih =>
    have hc : ¬ c = '`' := h c (List.mem_cons_self c cs)
    have hrec := ih (fun d hd => h d (List.mem_cons_of_mem c hd))
    have hbeq : ('`' == c) = false := by
      rw [beq_eq_false_iff_ne]
      exact fun he => hc he.symm
    simp only [List.cons_append, splitOnFirst, List.append_eq]
    rw [if_neg (by simp [isPrefixOfCh, hbeq])]
    rw [hrec]
    rfl

/-- The default head of a nonempty list is a member. -/
theorem headD_mem (s : Str) (d : Char) (hne : s ≠ []) : s.headD d ∈ s := by
  cases s with
  | nil => exact absurd rfl hne
  | cons c cs => exact List.mem_cons_self c cs

/-- The default last of a nonempty list is a member. -/
theorem getLastD_mem (s : Str) (d : Char) (hne : s ≠ []) : s.getLastD d ∈ s := by
  induction s generalizing d with
  | nil => exact absurd rfl hne
  | cons c cs ih =>
    cases hcs : cs with
    | nil => simp [List.getLastD_cons]
    | cons e es =>
      rw [List.getLastD_cons]
      rw [← hcs]
      exact List.mem_cons_of_mem c (ih c (by simp [hcs]))

/-- Every character of an intercalation comes from a piece or from the
separator. -/
theorem mem_intercalate (sep : Str) (ls : List Str) (c : Char)
    (h : c ∈ List.intercalate sep ls) : (∃ l ∈ ls, c ∈ l) ∨ c ∈ sep := by
  induction ls with
  | nil => simp [List.intercalate] at h
  | cons l rest ih =>
    cases hr : rest with
    | nil =>
      rw [hr] at h
      simp [List.intercalate] at h
      exact Or.inl ⟨l, List.mem_cons_self l [], h⟩
    | cons l2 ls2 =>
      rw [hr] at h
      have hit : List.intercalate sep (l :: l2 :: ls2) =
          l ++ sep ++ List.intercalate sep (l2 :: ls2) := by
        simp [List.intercalate, List.intersperse]
      rw [hit] at h
      rcases List.mem_append.mp h with h1 | h2
      · rcases List.mem_append.mp h1 with ha | hb
        · exact Or.inl ⟨l, List.mem_cons_self l _, ha⟩
        · exact Or.inr hb
      · rw [← hr] at h2
        rcases ih h2 with ⟨l3, hl3, hc3⟩ | hs
        · refine Or.inl ⟨l3, ?_, hc3⟩
          rw [hr] at hl3
          exact List.mem_cons_of_mem l hl3
        · exact Or.inr hs

/-- An intercalation of nonempty pieces is nonempty. -/
theorem intercalate_ne_nil (sep : Str) (ls : List Str) (hne : ls ≠ [])
    (h : ∀ l ∈ ls, l ≠ []) : List.intercalate sep ls ≠ [] := by
  cases ls with
  | nil => exact absurd rfl hne
  | cons l rest =>
    cases rest with
    | nil =>
      simpa [List.intercalate] using h l (List.mem_cons_self l [])
    | cons l2 ls2 =>
      have hit : List.intercalate sep (l :: l2 :: ls2) =
          l ++ sep ++ List.intercalate sep (l2 :: ls2) := by
        simp [List.intercalate, List.intersperse]
      rw [hit]
      intro hcon
      have := (List.append_eq_nil.mp ((List.append_eq_nil.mp hcon).1)).1
      exact h l (List.mem_cons_self l _) this

/-- The head of an intercalation of nonempty pieces is the head of the
first piece. -/
theorem intercalate_headD (sep : Str) (l : Str) (ls : List Str) (d : Char)
    (hl : l ≠ []) :
    (List.intercalate sep (l :: ls)).headD d = l.headD d := by
  cases ls with
  | nil => simp [List.intercalate]
  | cons l2 ls2 =>
    have hit : List.intercalate sep (l :: l2 :: ls2) =
        l ++ sep ++ List.intercalate sep (l2 :: ls2) := by
      simp [List.intercalate, List.intersperse]
    rw [hit, List.append_assoc]
    exact headD_append_ne l _ d hl

/-- The last character of an intercalation of nonempty pieces comes from
one of the pieces. -/
theorem intercalate_getLastD (sep : Str) (ls : List Str) (d : Char)
    (hne : ls ≠ []) (h : ∀ l ∈ ls, l ≠ []) :
    ∃ l ∈ ls, (List.intercalate sep ls).getLastD d = l.getLastD d := by
  induction ls with
  | nil => exact absurd rfl hne
  | cons l rest ih =>
    cases hr : rest with
    | nil =>
      refine ⟨l, List.mem_cons_self l _, ?_⟩
      simp [List.intercalate]
    | cons l2 ls2 =>
      have hit : List.intercalate sep (l :: l2 :: ls2) =
          l ++ sep ++ List.intercalate sep (l2 :: ls2) := by
        simp [List.intercalate, List.intersperse]
      subst hr
      obtain ⟨l3, hl3, he⟩ := ih (by simp)
        (fun x hx => h x (List.mem_cons_of_mem l hx))
      refine ⟨l3, List.mem_cons_of_mem l hl3, ?_⟩
      rw [hit, List.append_assoc]
      rw [getLastD_append_ne l _ d (by
        intro hcon
        exact absurd (List.append_eq_nil.mp hcon).2
          (intercalate_ne_nil sep (l2 :: ls2) (by simp)
            (fun x hx => h x (List.mem_cons_of_mem l hx))))]
      rw [getLastD_append_ne sep _ d (intercalate_ne_nil sep (l2 :: ls2) (by simp)
        (fun x hx => h x (List.mem_cons_of_mem l hx)))]
      exact he

/-- Dependency tokens contain no whitespace. -/
theorem WFDep_no_ws (s : Str) (h : WFDep s) : ∀ c ∈ s, isSpaceJS c = false := by
  intro c hc
  have := (h.2 c hc).2.1
  cases hor : isSpaceJS c
  · rfl
  · rw [isDepSep, hor] at this
    simp at this

/-- trim is the identity on a whitespace-free nonempty string. -/
theorem trimJS_eq_self_of_no_ws (s : Str) (hne : s ≠ [])
    (h : ∀ c ∈ s, isSpaceJS c = false) : trimJS s = s :=
  trimJS_eq_self s hne (h _ (headD_mem s ' ' hne)) (h _ (getLastD_mem s ' ' hne))

/-- The regex tail on a space followed by trimmed nonempty text captures
the text. -/
theorem matchTailJS_space (s : Str) (hne : s ≠ [])
    (hh : isSpaceJS (s.headD ' ') = false) : matchTailJS (' ' :: s) = some s := by
  unfold matchTailJS
  have h1 : List.dropWhile isSpaceJS (' ' :: s) = s := by
    rw [List.dropWhile_cons]
    rw [if_pos (by rfl)]
    exact dropWhile_head_false isSpaceJS s hne hh
  simp only [h1]
  rw [if_neg (by simpa [List.isEmpty_iff] using hne)]

/-- The File field of a serialized task line parses back to the path. -/
theorem applyTaskPart_file (acc : TaskFields) (path : Str) (hne : path ≠ [])
    (hh : isSpaceJS (path.headD ' ') = false)
    (hl : isSpaceJS (path.getLastD ' ') = false) :
    applyTaskPart acc (['F', 'i', 'l', 'e', ':', ' '] ++ path) =
      { acc with filePath := some path } := by
  unfold applyTaskPart
  have hcond : (((['F', 'i', 'l', 'e', ':', ' '] ++ path).take 5).map Char.toLower) =
      ['f', 'i', 'l', 'e', ':'] := rfl
  have hdrop : (['F', 'i', 'l', 'e', ':', ' '] ++ path).drop 5 = ' ' :: path := rfl
  unfold fieldMatchCI
  rw [List.length_cons, List.length_cons, List.length_cons, List.length_cons,
    List.length_cons, List.length_nil]
  rw [if_pos hcond, hdrop, matchTailJS_space path hne hh]
  show ({ acc with filePath := some (trimJS path) } : TaskFields) =
    { acc with filePath := some path }
  rw [trimJS_eq_self path hne hh hl]

/-- The Complexity field of a serialized task line parses back to the
complexity. -/
theorem applyTaskPart_complexity (acc : TaskFields) (cx : Complexity) :
    applyTaskPart acc
        (['C', 'o', 'm', 'p', 'l', 'e', 'x', 'i', 't', 'y', ':', ' '] ++
          complexityStr cx) =
      { acc with complexity := some cx } := by
  cases cx <;> rfl

/-- Splitting a serialized dependency list on comma/whitespace runs and
dropping the empty boundary pieces recovers the ids. -/
theorem splitDeps_intercalate (deps : List Str) (hne : deps ≠ [])
    (h : ∀ d ∈ deps, WFDep d) :
    ((splitPred isDepSep (List.intercalate [',', ' '] deps)).map trimJS).filter
      (fun d => !d.isEmpty) = deps := by
  induction deps with
  | nil => exact absurd rfl hne
  | cons d rest ih =>
    have hd := h d (List.mem_cons_self d rest)
    have hdfree : ∀ c ∈ d, isDepSep c = false := fun c hc => (hd.2 c hc).2.1
    have htrim : trimJS d = d := trimJS_eq_self_of_no_ws d hd.1 (WFDep_no_ws d hd)
    have hkeep : (!d.isEmpty) = true := by
      cases hdc : d with
      | nil => exact absurd hdc hd.1
      | cons x xs => rfl
    cases hr : rest with
    | nil =>
      have h1 : List.intercalate [',', ' '] [d] = d := by simp [List.intercalate]
      rw [h1, splitPred_sepFree isDepSep d hdfree]
      rw [List.map_cons, List.map_nil, htrim, List.filter_cons]
      rw [if_pos hkeep]
      rfl
    | cons d2 rest2 =>
      have hit : List.intercalate [',', ' '] (d :: d2 :: rest2) =
          d ++ (',' :: ' ' :: List.intercalate [',', ' '] (d2 :: rest2)) := by
        simp [List.intercalate, List.intersperse]
      rw [hit]
      rw [splitPred_append isDepSep d _ ',' hdfree rfl]
      have h2 : splitPred isDepSep (' ' :: List.intercalate [',', ' '] (d2 :: rest2)) =
          [] :: splitPred isDepSep (List.intercalate [',', ' '] (d2 :: rest2)) := rfl
      rw [h2]
      have hrec := ih (by rw [hr]; simp)
        (fun x hx => h x (List.mem_cons_of_mem d hx))
      rw [hr] at hrec
      rw [List.map_cons, List.map_cons, htrim, List.filter_cons]
      rw [if_pos hkeep]
      have h3 : trimJS ([] : Str) = [] := rfl
      rw [h3, List.filter_cons]
      have h4 : (!(([] : Str).isEmpty)) = false := rfl
      rw [h4]
      simp only [Bool.false_eq_true, if_false]
      rw [hrec]

/-- The DependsOn field of a serialized task line parses back to the id
list. -/
theorem applyTaskPart_deps (acc : TaskFields) (deps : List Str) (hne : deps ≠ [])
    (h : ∀ d ∈ deps, WFDep d) :
    applyTaskPart acc
        (['D', 'e', 'p', 'e', 'n', 'd', 's', 'O', 'n', ':', ' '] ++
          List.intercalate [',', ' '] deps) =
      { acc with dependsOn := some deps } := by
  have hdne : ∀ d ∈ deps, d ≠ [] := fun d hd => (h d hd).1
  have hsne : List.intercalate [',', ' '] deps ≠ [] :=
    intercalate_ne_nil [',', ' '] deps hne hdne
  have hhead : isSpaceJS ((List.intercalate [',', ' '] deps).headD ' ') = false := by
    cases hds : deps with
    | nil => exact absurd hds hne
    | cons d0 ds =>
      rw [intercalate_headD [',', ' '] d0 ds ' ' (hdne d0 (by rw [hds]; simp))]
      exact WFDep_no_ws d0 (h d0 (by rw [hds]; simp)) _
        (headD_mem d0 ' ' (hdne d0 (by rw [hds]; simp)))
  have hlast : isSpaceJS ((List.intercalate [',', ' '] deps).getLastD ' ') = false := by
    obtain ⟨l, hl, he⟩ := intercalate_getLastD [',', ' '] deps ' ' hne hdne
    rw [he]
    exact WFDep_no_ws l (h l hl) _ (getLastD_mem l ' ' (hdne l hl))
  have htrim : trimJS (List.intercalate [',', ' '] deps) =
      List.intercalate [',', ' '] deps :=
    trimJS_eq_self _ hsne hhead hlast
  have hfilter : (List.intercalate [',', ' '] deps).filter
      (fun c => !(c == '[' || c == ']')) = List.intercalate [',', ' '] deps := by
    rw [List.filter_eq_self]
    intro c hc
    rcases mem_intercalate [',', ' '] deps c hc with ⟨l, hl, hcl⟩ | hsep
    · have := ((h l hl).2 c hcl).2.2
      simp [this]
    · simp only [List.mem_cons, List.mem_singleton, List.not_mem_nil, or_false] at hsep
      rcases hsep with h1 | h1 <;> subst h1 <;> decide
  unfold applyTaskPart
  unfold fieldMatchCI
  simp only [List.length_cons, List.length_nil]
  have hcond1 : ¬ ((((['D', 'e', 'p', 'e', 'n', 'd', 's', 'O', 'n', ':', ' '] ++
      List.intercalate [',', ' '] deps).take (0 + 1 + 1 + 1 + 1 + 1)).map Char.toLower) =
      ['f', 'i', 'l', 'e', ':']) := by
    have h5 : (['D', 'e', 'p', 'e', 'n', 'd', 's', 'O', 'n', ':', ' '] ++
        List.intercalate [',', ' '] deps).take (0 + 1 + 1 + 1 + 1 + 1) =
        ['D', 'e', 'p', 'e', 'n'] := rfl
    rw [h5]
    decide
  rw [if_neg hcond1]
  have hcond2 : (((['D', 'e', 'p', 'e', 'n', 'd', 's', 'O', 'n', ':', ' '] ++
      List.intercalate [',', ' '] deps).take
        (0 + 1 + 1 + 1 + 1 + 1 + 1 + 1 + 1 + 1 + 1)).map Char.toLower) =
      ['d', 'e', 'p', 'e', 'n', 'd', 's', 'o', 'n', ':'] := rfl
  rw [if_pos hcond2]
  have hdrop : (['D', 'e', 'p', 'e', 'n', 'd', 's', 'O', 'n', ':', ' '] ++
      List.intercalate [',', ' '] deps).drop
        (0 + 1 + 1 + 1 + 1 + 1 + 1 + 1 + 1 + 1 + 1) =
      ' ' :: List.intercalate [',', ' '] deps := rfl
  rw [hdrop, matchTailJS_space _ hsne hhead]
  simp only [htrim, hfilter, splitDeps_intercalate deps hne h]
  rw [if_neg (by
    cases hds : deps with
    | nil => exact absurd hds hne
    | cons d0 ds => simp)]

/-- Unfolding of parseTaskLine at a successful match with known parts. -/
theorem parseTaskLine_eq (line tid REST : Str) (phase : Option Str)
    (description : Str) (restParts : List Str)
    (hm : taskLineMatch line = some (tid, REST))
    (hp : ((splitChar '|' REST).map trimJS).filter (fun p => !p.isEmpty) =
      description :: restParts) :
    parseTaskLine line phase =
      some { id := tid, description := trimJS description,
             filePath := (restParts.foldl applyTaskPart
               { filePath := none, dependsOn := none, complexity := none }).filePath,
             phase := phase,
             dependsOn := (restParts.foldl applyTaskPart
               { filePath := none, dependsOn := none, complexity := none }).dependsOn,
             complexity := (restParts.foldl applyTaskPart
               { filePath := none, dependsOn := none, complexity := none }).complexity,
             status := TaskStatus.pending } := by
  unfold parseTaskLine
  rw [hm]
  show ((match ((splitChar '|' REST).map trimJS).filter (fun p => !p.isEmpty) with
    | [] => none
    | description :: restParts =>
      some { id := tid, description := trimJS description,
             filePath := (restParts.foldl applyTaskPart
               { filePath := none, dependsOn := none, complexity := none }).filePath,
             phase := phase,
             dependsOn := (restParts.foldl applyTaskPart
               { filePath := none, dependsOn := none, complexity := none }).dependsOn,
             complexity := (restParts.foldl applyTaskPart
               { filePath := none, dependsOn := none, complexity := none }).complexity,
             status := TaskStatus.pending } : Option ParsedTask)) = _
  rw [hp]

/-- A good character is not a pipe, a newline or a backtick. -/
theorem goodChar_ne (c : Char) (h : goodChar c = true) :
    ¬ c = '|' ∧ ¬ c = '\n' ∧ ¬ c = '`' := by
  refine ⟨?_, ?_, ?_⟩ <;> intro he <;> subst he <;> revert h <;> decide

/-- The task-line pattern matches a serialized head followed by a space and
trimmed nonempty text at position zero. -/
theorem taskLineMatch_serialized (d1 d2 d3 : Char) (R : Str)
    (h1 : d1.isDigit = true) (h2 : d2.isDigit = true) (h3 : d3.isDigit = true)
    (hne : R ≠ []) (hh : isSpaceJS (R.headD ' ') = false) :
    taskLineMatch ('-' :: ' ' :: '[' :: ' ' :: ']' :: ' ' :: 'T' :: d1 :: d2 :: d3 ::
      ':' :: ' ' :: R) = some (['T', d1, d2, d3], R) := by
  have hhm : taskHeadMatch ('-' :: ' ' :: '[' :: ' ' :: ']' :: ' ' :: 'T' :: d1 :: d2 ::
      d3 :: ':' :: ' ' :: R) =
      if d1.isDigit && d2.isDigit && d3.isDigit then some (['T', d1, d2, d3], ' ' :: R)
      else none := rfl
  rw [h1, h2, h3] at hhm
  simp only [Bool.and_self, if_true] at hhm
  simp only [taskLineMatch, hhm]
  simp only [matchTailJS_space R hne hh]

/-- Splitting the serialized remainder of a task line on pipes, trimming
and dropping empties leaves the description and the three field parts. -/
theorem splitParts_serialized (desc path S C : Str)
    (hdne0 : desc ≠ []) (hdh : isSpaceJS (desc.headD ' ') = false)
    (hdl : isSpaceJS (desc.getLastD ' ') = false)
    (hdg : ∀ c ∈ desc, goodChar c = true)
    (hpne : path ≠ []) (hph : isSpaceJS (path.headD ' ') = false)
    (hpl : isSpaceJS (path.getLastD ' ') = false)
    (hpg : ∀ c ∈ path, goodChar c = true)
    (hSne : S ≠ []) (hSh : isSpaceJS (S.headD ' ') = false)
    (hSl : isSpaceJS (S.getLastD ' ') = false)
    (hSg : ∀ c ∈ S, ¬ c = '|')
    (hCne : C ≠ []) (hCh : isSpaceJS (C.headD ' ') = false)
    (hCl : isSpaceJS (C.getLastD ' ') = false)
    (hCg : ∀ c ∈ C, ¬ c = '|') :
    ((splitChar '|' ((desc ++ [' ']) ++ '|' ::
        (([' ', 'F', 'i', 'l', 'e', ':', ' '] ++ path ++ [' ']) ++ '|' ::
          (([' ', 'D', 'e', 'p', 'e', 'n', 'd', 's', 'O', 'n', ':', ' '] ++ S ++
              [' ']) ++ '|' ::
            ([' ', 'C', 'o', 'm', 'p', 'l', 'e', 'x', 'i', 't', 'y', ':', ' '] ++
              C))))).map trimJS).filter (fun p => !p.isEmpty) =
      [desc, ['F', 'i', 'l', 'e', ':', ' '] ++ path,
        ['D', 'e', 'p', 'e', 'n', 'd', 's', 'O', 'n', ':', ' '] ++ S,
        ['C', 'o', 'm', 'p', 'l', 'e', 'x', 'i', 't', 'y', ':', ' '] ++ C] := by
  have hX1free : ∀ c ∈ desc ++ [' '], ¬ c = '|' :=
    List.forall_mem_append.mpr
      ⟨fun c hc => (goodChar_ne c (hdg c hc)).1, by decide⟩
  have hX2free : ∀ c ∈ ([' ', 'F', 'i', 'l', 'e', ':', ' '] ++ path ++ [' ']), ¬ c = '|' :=
    List.forall_mem_append.mpr
      ⟨List.forall_mem_append.mpr
        ⟨by decide, fun c hc => (goodChar_ne c (hpg c hc)).1⟩, by decide⟩
  have hX3free : ∀ c ∈ ([' ', 'D', 'e', 'p', 'e', 'n', 'd', 's', 'O', 'n', ':', ' '] ++
      S ++ [' ']), ¬ c = '|' :=
    List.forall_mem_append.mpr
      ⟨List.forall_mem_append.mpr ⟨by decide, hSg⟩, by decide⟩
  have hX4free : ∀ c ∈ ([' ', 'C', 'o', 'm', 'p', 'l', 'e', 'x', 'i', 't', 'y', ':',
      ' '] ++ C), ¬ c = '|' :=
    List.forall_mem_append.mpr ⟨by decide, hCg⟩
  have hsplit : splitChar '|' ((desc ++ [' ']) ++ '|' ::
      (([' ', 'F', 'i', 'l', 'e', ':', ' '] ++ path ++ [' ']) ++ '|' ::
        (([' ', 'D', 'e', 'p', 'e', 'n', 'd', 's', 'O', 'n', ':', ' '] ++ S ++
            [' ']) ++ '|' ::
          ([' ', 'C', 'o', 'm', 'p', 'l', 'e', 'x', 'i', 't', 'y', ':', ' '] ++ C)))) =
      [desc ++ [' '],
       [' ', 'F', 'i', 'l', 'e', ':', ' '] ++ path ++ [' '],
       [' ', 'D', 'e', 'p', 'e', 'n', 'd', 's', 'O', 'n', ':', ' '] ++ S ++ [' '],
       [' ', 'C', 'o', 'm', 'p', 'l', 'e', 'x', 'i', 't', 'y', ':', ' '] ++ C] := by
    rw [splitChar_append '|' _ _ hX1free]
    rw [splitChar_append '|' _ _ hX2free]
    rw [splitChar_append '|' _ _ hX3free]
    rw [splitChar_sepFree '|' _ hX4free]
  have htrim1 : trimJS (desc ++ [' ']) = desc :=
    trimJS_wf_append_space desc hdne0 hdh hdl
  have htrim2 : trimJS ([' ', 'F', 'i', 'l', 'e', ':', ' '] ++ path ++ [' ']) =
      ['F', 'i', 'l', 'e', ':', ' '] ++ path := by
    show trimJS (' ' :: ((['F', 'i', 'l', 'e', ':', ' '] ++ path) ++ [' '])) = _
    rw [trimJS_cons_space]
    exact trimJS_wf_append_space (['F', 'i', 'l', 'e', ':', ' '] ++ path)
      (by simp)
      (by rw [headD_append_ne _ path ' ' (by simp)]; decide)
      (by rw [getLastD_append_ne _ path ' ' hpne]; exact hpl)
  have htrim3 : trimJS ([' ', 'D', 'e', 'p', 'e', 'n', 'd', 's', 'O', 'n', ':', ' '] ++
      S ++ [' ']) = ['D', 'e', 'p', 'e', 'n', 'd', 's', 'O', 'n', ':', ' '] ++ S := by
    show trimJS (' ' :: ((['D', 'e', 'p', 'e', 'n', 'd', 's', 'O', 'n', ':', ' '] ++
      S) ++ [' '])) = _
    rw [trimJS_cons_space]
    exact trimJS_wf_append_space (['D', 'e', 'p', 'e', 'n', 'd', 's', 'O', 'n', ':',
        ' '] ++ S)
      (by simp)
      (by rw [headD_append_ne _ S ' ' (by simp)]; decide)
      (by rw [getLastD_append_ne _ S ' ' hSne]; exact hSl)
  have htrim4 : trimJS ([' ', 'C', 'o', 'm', 'p', 'l', 'e', 'x', 'i', 't', 'y', ':',
      ' '] ++ C) = ['C', 'o', 'm', 'p', 'l', 'e', 'x', 'i', 't', 'y', ':', ' '] ++ C := by
    show trimJS (' ' :: (['C', 'o', 'm', 'p', 'l', 'e', 'x', 'i', 't', 'y', ':', ' '] ++
      C)) = _
    rw [trimJS_cons_space]
    exact trimJS_eq_self (['C', 'o', 'm', 'p', 'l', 'e', 'x', 'i', 't', 'y', ':', ' '] ++
        C)
      (by simp)
      (by rw [headD_append_ne _ C ' ' (by simp)]; decide)
      (by rw [getLastD_append_ne _ C ' ' hCne]; exact hCl)
  have hkeep1 : (!desc.isEmpty) = true := by
    cases hdc : desc with
    | nil => exact absurd hdc hdne0
    | cons x xs => rfl
  rw [hsplit]
  rw [List.map_cons, List.map_cons, List.map_cons, List.map_cons, List.map_nil]
  rw [htrim1, htrim2, htrim3, htrim4]
  rw [List.filter_cons, if_pos hkeep1]
  rw [List.filter_cons, if_pos (show (!(List.isEmpty
    (['F', 'i', 'l', 'e', ':', ' '] ++ path))) = true from rfl)]
  rw [List.filter_cons, if_pos (show (!(List.isEmpty
    (['D', 'e', 'p', 'e', 'n', 'd', 's', 'O', 'n', ':', ' '] ++ S))) = true from rfl)]
  rw [List.filter_cons, if_pos (show (!(List.isEmpty
    (['C', 'o', 'm', 'p', 'l', 'e', 'x', 'i', 't', 'y', ':', ' '] ++ C))) = true
    from rfl)]
  rw [List.filter_nil]

/-- A serialized well-formed task line parses back to the original task
record. -/
theorem parse_serialize_line (t : ParsedTask) (h : WFTask t) :
    parseTaskLine (serializeTaskLine t) none = some t := by
  obtain ⟨⟨d1, d2, d3, hid, hd1, hd2, hd3⟩, hdesc, ⟨path, hpath, hwfp⟩,
    ⟨deps, hdeps, hdne, hwfd⟩, ⟨cx, hcx⟩, hphase, hstatus⟩ := h
  obtain ⟨hdne0, hdgood, hdhead, hdlast⟩ := hdesc
  obtain ⟨hpne, hpgood, hphead, hplast⟩ := hwfp
  have hdepne : ∀ d ∈ deps, d ≠ [] := fun d hd => (hwfd d hd).1
  have hSne : List.intercalate [',', ' '] deps ≠ [] :=
    intercalate_ne_nil [',', ' '] deps hdne hdepne
  have hSh : isSpaceJS ((List.intercalate [',', ' '] deps).headD ' ') = false := by
    cases hds : deps with
    | nil => exact absurd hds hdne
    | cons d0 ds =>
      rw [intercalate_headD [',', ' '] d0 ds ' ' (hdepne d0 (by rw [hds]; simp))]
      exact WFDep_no_ws d0 (hwfd d0 (by rw [hds]; simp)) _
        (headD_mem d0 ' ' (hdepne d0 (by rw [hds]; simp)))
  have hSl : isSpaceJS ((List.intercalate [',', ' '] deps).getLastD ' ') = false := by
    obtain ⟨l, hl, he⟩ := intercalate_getLastD [',', ' '] deps ' ' hdne hdepne
    rw [he]
    exact WFDep_no_ws l (hwfd l hl) _ (getLastD_mem l ' ' (hdepne l hl))
  have hSg : ∀ c ∈ List.intercalate [',', ' '] deps, ¬ c = '|' := by
    intro c hc
    rcases mem_intercalate [',', ' '] deps c hc with ⟨l, hl, hcl⟩ | hsep
    · exact (goodChar_ne c ((hwfd l hl).2 c hcl).1).1
    · simp only [List.mem_cons, List.mem_singleton, List.not_mem_nil, or_false] at hsep
      rcases hsep with h1 | h1 <;> subst h1 <;> decide
  have hCne : complexityStr cx ≠ [] := by cases cx <;> decide
  have hCh : isSpaceJS ((complexityStr cx).headD ' ') = false := by
    cases cx <;> decide
  have hCl : isSpaceJS ((complexityStr cx).getLastD ' ') = false := by
    cases cx <;> decide
  have hCg : ∀ c ∈ complexityStr cx, ¬ c = '|' := by cases cx <;> decide
  have hser : serializeTaskLine t =
      '-' :: ' ' :: '[' :: ' ' :: ']' :: ' ' :: 'T' :: d1 :: d2 :: d3 :: ':' :: ' ' ::
        ((t.description ++ [' ']) ++ '|' ::
          (([' ', 'F', 'i', 'l', 'e', ':', ' '] ++ path ++ [' ']) ++ '|' ::
            (([' ', 'D', 'e', 'p', 'e', 'n', 'd', 's', 'O', 'n', ':', ' '] ++
                List.intercalate [',', ' '] deps ++ [' ']) ++ '|' ::
              ([' ', 'C', 'o', 'm', 'p', 'l', 'e', 'x', 'i', 't', 'y', ':', ' '] ++
                complexityStr cx)))) := by
    rw [serializeTaskLine, hid, hpath, hdeps, hcx]
    simp [List.append_assoc]
  have hRne : (t.description ++ [' ']) ++ '|' ::
      (([' ', 'F', 'i', 'l', 'e', ':', ' '] ++ path ++ [' ']) ++ '|' ::
        (([' ', 'D', 'e', 'p', 'e', 'n', 'd', 's', 'O', 'n', ':', ' '] ++
            List.intercalate [',', ' '] deps ++ [' ']) ++ '|' ::
          ([' ', 'C', 'o', 'm', 'p', 'l', 'e', 'x', 'i', 't', 'y', ':', ' '] ++
            complexityStr cx))) ≠ [] := by
    intro hcon
    exact absurd (List.append_eq_nil.mp hcon).2 (by simp)
  have hRh : isSpaceJS ((((t.description ++ [' ']) ++ '|' ::
      (([' ', 'F', 'i', 'l', 'e', ':', ' '] ++ path ++ [' ']) ++ '|' ::
        (([' ', 'D', 'e', 'p', 'e', 'n', 'd', 's', 'O', 'n', ':', ' '] ++
            List.intercalate [',', ' '] deps ++ [' ']) ++ '|' ::
          ([' ', 'C', 'o', 'm', 'p', 'l', 'e', 'x', 'i', 't', 'y', ':', ' '] ++
            complexityStr cx))))).headD ' ') = false := by
    rw [headD_append_ne _ _ ' ' (by
      intro hcon
      exact hdne0 (List.append_eq_nil.mp hcon).1)]
    rw [headD_append_ne _ _ ' ' hdne0]
    exact hdhead
  have hmatch : taskLineMatch (serializeTaskLine t) =
      some (['T', d1, d2, d3],
        (t.description ++ [' ']) ++ '|' ::
          (([' ', 'F', 'i', 'l', 'e', ':', ' '] ++ path ++ [' ']) ++ '|' ::
            (([' ', 'D', 'e', 'p', 'e', 'n', 'd', 's', 'O', 'n', ':', ' '] ++
                List.intercalate [',', ' '] deps ++ [' ']) ++ '|' ::
              ([' ', 'C', 'o', 'm', 'p', 'l', 'e', 'x', 'i', 't', 'y', ':', ' '] ++
                complexityStr cx)))) := by
    rw [hser]
    exact taskLineMatch_serialized d1 d2 d3 _ hd1 hd2 hd3 hRne hRh
  have hparts := splitParts_serialized t.description path
    (List.intercalate [',', ' '] deps) (complexityStr cx)
    hdne0 hdhead hdlast hdgood hpne hphead hplast hpgood
    hSne hSh hSl hSg hCne hCh hCl hCg
  rw [parseTaskLine_eq _ _ _ _ _ _ hmatch hparts]
  rw [List.foldl_cons, List.foldl_cons, List.foldl_cons, List.foldl_nil]
  rw [applyTaskPart_file _ path hpne hphead hplast]
  rw [applyTaskPart_deps _ deps hdne hwfd]
  rw [applyTaskPart_complexity _ cx]
  rw [trimJS_eq_self t.description hdne0 hdhead hdlast]
  rw [← hid, ← hpath, ← hdeps, ← hcx, ← hphase, ← hstatus]

/-- A digit character is a good character. -/
theorem digit_goodChar (c : Char) (h : c.isDigit = true) : goodChar c = true := by
  have h1 : (c == '|') = false := by
    cases hb : c == '|' with
    | false => rfl
    | true =>
      have he := eq_of_beq hb
      subst he
      exact absurd h (by decide)
  have h2 : (c == '\n') = false := by
    cases hb : c == '\n' with
    | false => rfl
    | true =>
      have he := eq_of_beq hb
      subst he
      exact absurd h (by decide)
  have h3 : (c == '`') = false := by
    cases hb : c == '`' with
    | false => rfl
    | true =>
      have he := eq_of_beq hb
      subst he
      exact absurd h (by decide)
  unfold goodChar
  rw [h1, h2, h3]
  rfl

/-- The spelled-out complexities consist of good characters. -/
theorem complexityStr_good (cx : Complexity) :
    ∀ c ∈ complexityStr cx, goodChar c = true := by
  cases cx <;> decide

/-- A serialized task line starts with the checkbox dash. -/
theorem serializeTaskLine_cons (t : ParsedTask) :
    ∃ r, serializeTaskLine t = '-' :: r := ⟨_, rfl⟩

/-- A serialized task line is nonempty. -/
theorem serializeTaskLine_ne (t : ParsedTask) : serializeTaskLine t ≠ [] := by
  obtain ⟨r, hr⟩ := serializeTaskLine_cons t
  rw [hr]
  simp

/-- The first character of a serialized task line. -/
theorem serializeTaskLine_headD (t : ParsedTask) :
    (serializeTaskLine t).headD ' ' = '-' := by
  obtain ⟨r, hr⟩ := serializeTaskLine_cons t
  rw [hr]
  rfl

/-- The last character of a serialized task line is the last character of
its complexity word. -/
theorem serializeTaskLine_getLastD (t : ParsedTask) (cx : Complexity)
    (hcx : t.complexity = some cx) :
    (serializeTaskLine t).getLastD ' ' = (complexityStr cx).getLastD ' ' := by
  rw [serializeTaskLine, hcx]
  exact getLastD_append_ne _ _ ' ' (by cases cx <;> decide)

/-- A serialized task line is already trimmed at both ends. -/
theorem serializeTaskLine_trim (t : ParsedTask) (cx : Complexity)
    (hcx : t.complexity = some cx) :
    trimJS (serializeTaskLine t) = serializeTaskLine t :=
  trimJS_eq_self _ (serializeTaskLine_ne t)
    (by rw [serializeTaskLine_headD]; decide)
    (by rw [serializeTaskLine_getLastD t cx hcx]; cases cx <;> decide)

/-- Every character of a serialized well-formed task line is a good
character or one of the fixed frame characters. -/
theorem serializeTaskLine_good (t : ParsedTask) (h : WFTask t) :
    ∀ c ∈ serializeTaskLine t,
      goodChar c = true ∨ c ∈ ['-', ' ', '[', ']', '|', ':', ','] := by
  obtain ⟨⟨d1, d2, d3, hid, hd1, hd2, hd3⟩, ⟨hdne0, hdg, hdh, hdl⟩,
    ⟨path, hpath, hpne, hpg, hph, hpl⟩, ⟨deps, hdeps, hdne, hwfd⟩,
    ⟨cx, hcx⟩, hphase, hstatus⟩ := h
  intro c hc
  rw [serializeTaskLine, hid, hpath, hdeps, hcx] at hc
  simp only [Option.getD_some] at hc
  simp only [List.mem_append] at hc
  rcases hc with
    ((((((((h1 | h2) | h3) | h4) | h5) | h6) | h7) | h8) | h9) | h10
  · exact (show ∀ x ∈ (['-', ' ', '[', ' ', ']', ' '] : Str),
      goodChar x = true ∨ x ∈ ['-', ' ', '[', ']', '|', ':', ','] from by decide) c h1
  · simp only [List.mem_cons, List.not_mem_nil, or_false] at h2
    rcases h2 with rfl | rfl | rfl | rfl
    · exact Or.inl (by decide)
    · exact Or.inl (digit_goodChar _ hd1)
    · exact Or.inl (digit_goodChar _ hd2)
    · exact Or.inl (digit_goodChar _ hd3)
  · exact (show ∀ x ∈ ([':', ' '] : Str),
      goodChar x = true ∨ x ∈ ['-', ' ', '[', ']', '|', ':', ','] from by decide) c h3
  · exact Or.inl (hdg c h4)
  · exact (show ∀ x ∈ ([' ', '|', ' ', 'F', 'i', 'l', 'e', ':', ' '] : Str),
      goodChar x = true ∨ x ∈ ['-', ' ', '[', ']', '|', ':', ','] from by decide) c h5
  · exact Or.inl (hpg c h6)
  · exact (show ∀ x ∈ ([' ', '|', ' ', 'D', 'e', 'p', 'e', 'n', 'd', 's', 'O', 'n',
      ':', ' '] : Str),
      goodChar x = true ∨ x ∈ ['-', ' ', '[', ']', '|', ':', ','] from by decide) c h7
  · rcases mem_intercalate [',', ' '] deps c h8 with ⟨l, hl, hcl⟩ | hsep
    · exact Or.inl ((hwfd l hl).2 c hcl).1
    · exact Or.inr ((show ∀ x ∈ ([',', ' '] : Str),
        x ∈ ['-', ' ', '[', ']', '|', ':', ','] from by decide) c hsep)
  · exact (show ∀ x ∈ ([' ', '|', ' ', 'C', 'o', 'm', 'p', 'l', 'e', 'x', 'i', 't',
      'y', ':', ' '] : Str),
      goodChar x = true ∨ x ∈ ['-', ' ', '[', ']', '|', ':', ','] from by decide) c h9
  · exact Or.inl (complexityStr_good cx c h10)

/-- A serialized well-formed task line contains no newline. -/
theorem serializeTaskLine_no_nl (t : ParsedTask) (h : WFTask t) :
    ∀ c ∈ serializeTaskLine t, ¬ c = '\n' := by
  intro c hc
  rcases serializeTaskLine_good t h c hc with hg | hl
  · exact (goodChar_ne c hg).2.1
  · exact (show ∀ x ∈ (['-', ' ', '[', ']', '|', ':', ','] : Str), ¬ x = '\n'
      from by decide) c hl

/-- A serialized well-formed task line contains no backtick. -/
theorem serializeTaskLine_no_bt (t : ParsedTask) (h : WFTask t) :
    ∀ c ∈ serializeTaskLine t, ¬ c = '`' := by
  intro c hc
  rcases serializeTaskLine_good t h c hc with hg | hl
  · exact (goodChar_ne c hg).2.2
  · exact (show ∀ x ∈ (['-', ' ', '[', ']', '|', ':', ','] : Str), ¬ x = '`'
      from by decide) c hl

/-- Splitting a separator-terminated intercalation of separator-free lines
recovers the lines plus one empty boundary piece. -/
theorem splitChar_intercalate (sep : Char) (lines : List Str) (hne : lines ≠ [])
    (h : ∀ l ∈ lines, ∀ c ∈ l, ¬ c = sep) :
    splitChar sep (List.intercalate [sep] lines ++ [sep]) = lines ++ [[]] := by
  induction lines with
  | nil => exact absurd rfl hne
  | cons l rest ih =>
    cases hr : rest with
    | nil =>
      subst hr
      have h1 : List.intercalate [sep] [l] = l := by simp [List.intercalate]
      rw [h1]
      have h2 : l ++ [sep] = l ++ sep :: [] := rfl
      rw [h2, splitChar_append sep l [] (h l (List.mem_cons_self l []))]
      rfl
    | cons l2 ls2 =>
      subst hr
      have hit : List.intercalate [sep] (l :: l2 :: ls2) =
          l ++ ([sep] ++ List.intercalate [sep] (l2 :: ls2)) := by
        simp [List.intercalate, List.intersperse]
      rw [hit]
      have h3 : (l ++ ([sep] ++ List.intercalate [sep] (l2 :: ls2))) ++ [sep] =
          l ++ sep :: (List.intercalate [sep] (l2 :: ls2) ++ [sep]) := by
        simp
      rw [h3, splitChar_append sep l _ (h l (List.mem_cons_self l _))]
      rw [ih (by simp) (fun x hx => h x (List.mem_cons_of_mem l hx))]
      rfl

/-- The line loop on serialized well-formed task lines plus the trailing
empty piece parses back the original records. -/
theorem processLines_serialized (ts : List ParsedTask) (h : ∀ t ∈ ts, WFTask t) :
    processLines (List.map serializeTaskLine ts ++ [[]]) none = ts := by
  induction ts with
  | nil => rfl
  | cons t rest ih =>
    have ht := h t (List.mem_cons_self t rest)
    obtain ⟨cx, hcx⟩ := ht.2.2.2.2.1
    have htrim := serializeTaskLine_trim t cx hcx
    have hph : phaseHeaderMatch (serializeTaskLine t) = none := by
      obtain ⟨r, hr⟩ := serializeTaskLine_cons t
      rw [hr]
      rfl
    have hpre : isPrefixOfCh ['-', ' ', '[', ' ', ']'] (serializeTaskLine t) =
        true := rfl
    simp only [List.map_cons, List.cons_append, processLines]
    rw [htrim]
    simp only [hph]
    rw [if_pos hpre]
    simp only [parse_serialize_line t ht]
    simp only [List.append_eq]
    rw [ih (fun x hx => h x (List.mem_cons_of_mem t hx))]

/-- Block extraction on a serialized tasks block captures the serialized
lines with the trailing newline. -/
theorem extractTasksBlock_serialized (ts : List ParsedTask) (hne : ts ≠ [])
    (h : ∀ t ∈ ts, WFTask t) :
    extractTasksBlock (serializeTasksBlock ts) =
      some (List.intercalate ['\n'] (ts.map serializeTaskLine) ++ ['\n']) := by
  have hlne : ts.map serializeTaskLine ≠ [] := by
    cases ts with
    | nil => exact absurd rfl hne
    | cons a b => simp
  have hlne2 : ∀ l ∈ ts.map serializeTaskLine, l ≠ [] := by
    intro l hl
    obtain ⟨t, ht, rfl⟩ := List.mem_map.mp hl
    exact serializeTaskLine_ne t
  have hIne : List.intercalate ['\n'] (ts.map serializeTaskLine) ≠ [] :=
    intercalate_ne_nil ['\n'] _ hlne hlne2
  have hIhead : (List.intercalate ['\n'] (ts.map serializeTaskLine)).headD ' ' =
      '-' := by
    cases hts : ts with
    | nil => exact absurd hts hne
    | cons t rest =>
      rw [List.map_cons, intercalate_headD ['\n'] _ _ ' ' (serializeTaskLine_ne t)]
      exact serializeTaskLine_headD t
  have hInobt : ∀ c ∈ List.intercalate ['\n'] (ts.map serializeTaskLine) ++ ['\n'],
      ¬ c = '`' := by
    refine List.forall_mem_append.mpr ⟨?_, by decide⟩
    intro c hc
    rcases mem_intercalate ['\n'] _ c hc with ⟨l, hl, hcl⟩ | hsep
    · obtain ⟨t, ht, rfl⟩ := List.mem_map.mp hl
      exact serializeTaskLine_no_bt t (h t ht) c hcl
    · simp only [List.mem_singleton] at hsep
      subst hsep
      decide
  rw [show serializeTasksBlock ts =
    ['`', '`', '`', 't', 'a', 's', 'k', 's'] ++ ('\n' ::
      (List.intercalate ['\n'] (ts.map serializeTaskLine) ++ ['\n', '`', '`', '`']))
    from by unfold serializeTasksBlock; simp]
  unfold extractTasksBlock
  simp only [splitOnFirst_at_zero ['`', '`', '`', 't', 'a', 's', 'k', 's'] _
    (by simp)]
  have hdw : List.dropWhile isSpaceJS ('\n' ::
      (List.intercalate ['\n'] (ts.map serializeTaskLine) ++ ['\n', '`', '`', '`'])) =
      List.intercalate ['\n'] (ts.map serializeTaskLine) ++ ['\n', '`', '`', '`'] := by
    rw [List.dropWhile_cons]
    rw [if_pos (by decide)]
    exact dropWhile_head_false isSpaceJS _ (by
        intro hcon
        exact absurd (List.append_eq_nil.mp hcon).2 (by simp))
      (by rw [headD_append_ne _ _ ' ' hIne, hIhead]; decide)
  simp only [hdw]
  have hsf : splitOnFirst ['`', '`', '`']
      (List.intercalate ['\n'] (ts.map serializeTaskLine) ++ ['\n', '`', '`', '`']) =
      some (List.intercalate ['\n'] (ts.map serializeTaskLine) ++ ['\n'], []) := by
    have h1 : List.intercalate ['\n'] (ts.map serializeTaskLine) ++
        ['\n', '`', '`', '`'] =
        (List.intercalate ['\n'] (ts.map serializeTaskLine) ++ ['\n']) ++
          '`' :: '`' :: '`' :: [] := by
      simp
    rw [h1]
    exact splitOnFirst_fence _ _ hInobt
  simp only [hsf]

/-- Parsing a serialized well-formed tasks block recovers the original
records. -/
theorem parse_serialize_block (ts : List ParsedTask) (h : ∀ t ∈ ts, WFTask t) :
    parseTasksFromSpec (serializeTasksBlock ts) = ts := by
  cases hts : ts with
  | nil => rfl
  | cons t rest =>
    subst hts
    unfold parseTasksFromSpec
    simp only [extractTasksBlock_serialized (t :: rest) (by simp) h]
    rw [splitChar_intercalate '\n' ((t :: rest).map serializeTaskLine)
      (by simp)
      (by
        intro l hl
        obtain ⟨x, hx, rfl⟩ := List.mem_map.mp hl
        exact serializeTaskLine_no_nl x (h x hx))]
    exact processLines_serialized (t :: rest) h

/-- C8: for every plan text whose tasks block consists of well-formed task
lines — here the serialization of any list of well-formed task records —
parsing yields exactly those records: the same number of records, with ids
in document order, and re-serializing the parsed records and re-parsing
them changes nothing (the round trip is idempotent). -/
theorem parseTasksFromSpec_roundTrip (ts : List ParsedTask)
    (h : ∀ t ∈ ts, WFTask t) :
    parseTasksFromSpec (serializeTasksBlock ts) = ts ∧
    (parseTasksFromSpec (serializeTasksBlock ts)).length = ts.length ∧
    (parseTasksFromSpec (serializeTasksBlock ts)).map ParsedTask.id =
      ts.map ParsedTask.id ∧
    parseTasksFromSpec (serializeTasksBlock
        (parseTasksFromSpec (serializeTasksBlock ts))) =
      parseTasksFromSpec (serializeTasksBlock ts) := by
  have h1 := parse_serialize_block ts h
  exact ⟨h1, by rw [h1], by rw [h1], by rw [h1, h1]⟩

/-- Witness: the round trip on a concrete block of two well-formed task
records. -/
theorem parseTasksFromSpec_roundTrip_witness :
    parseTasksFromSpec (serializeTasksBlock [sampleTask1, sampleTask2]) =
      [sampleTask1, sampleTask2] ∧
    (parseTasksFromSpec (serializeTasksBlock [sampleTask1, sampleTask2])).length =
      ([sampleTask1, sampleTask2] : List ParsedTask).length ∧
    (parseTasksFromSpec (serializeTasksBlock [sampleTask1, sampleTask2])).map
        ParsedTask.id =
      ([sampleTask1, sampleTask2] : List ParsedTask).map ParsedTask.id ∧
    parseTasksFromSpec (serializeTasksBlock
        (parseTasksFromSpec (serializeTasksBlock [sampleTask1, sampleTask2]))) =
      parseTasksFromSpec (serializeTasksBlock [sampleTask1, sampleTask2]) := by
  have hwf1 : WFTask sampleTask1 :=
    ⟨⟨'0', '0', '1', rfl, by decide, by decide, by decide⟩,
      ⟨by decide, by decide, by decide, by decide⟩,
      ⟨['s', 'r', 'c', '/', 'a', '.', 't', 's'], rfl,
        by decide, by decide, by decide, by decide⟩,
      ⟨[['T', '0', '0', '2']], rfl, by decide, by
        intro d hd
        simp only [List.mem_cons, List.not_mem_nil, or_false] at hd
        subst hd
        exact ⟨by decide, by decide⟩⟩,
      ⟨Complexity.low, rfl⟩, rfl, rfl⟩
  have hwf2 : WFTask sampleTask2 :=
    ⟨⟨'0', '0', '2', rfl, by decide, by decide, by decide⟩,
      ⟨by decide, by decide, by decide, by decide⟩,
      ⟨['s', 'r', 'c', '/', 'b', '.', 't', 's'], rfl,
        by decide, by decide, by decide, by decide⟩,
      ⟨[['T', '0', '0', '1'], ['T', '0', '0', '3']], rfl, by decide, by
        intro d hd
        simp only [List.mem_cons, List.not_mem_nil, or_false] at hd
        rcases hd with rfl | rfl
        · exact ⟨by decide, by decide⟩
        · exact ⟨by decide, by decide⟩⟩,
      ⟨Complexity.medium, rfl⟩, rfl, rfl⟩
  exact parseTasksFromSpec_roundTrip [sampleTask1, sampleTask2] (by
    intro t ht
    simp only [List.mem_cons, List.not_mem_nil, or_false] at ht
    rcases ht with rfl | rfl
    · exact hwf1
    · exact hwf2)

end Automaker
